import Mathlib

/-!
Verification of the markdown-check service against its specification.

The development shallowly embeds the TypeScript sources:
- `src/lib/security` (hostname safety: `isPrivateIPv4`, `isPrivateIPv6`,
  `isPrivateIp`, `assertSafeTarget`) together with models of the Node
  primitives they call (`net.isIP`, JavaScript `Number`, `String` methods);
- `src/app/api/check/route` (user-agent sanitizer, verdict classifier,
  limited body reader, probe-failure translation);
- `src/lib/rate-limit` (the in-process sliding-window fallback limiter).

JavaScript strings are modelled two ways, matching how the source uses
them.  Where the code inspects characters (hostnames, headers, error
names, numeric strings) they are `List Char` — code points, and ASCII in
the positions the theorems touch.  Where the code measures or slices
(`length`, `slice` in the user-agent sanitizer and the body reader) they
are `List Nat` of UTF-16 code units, the unit those JavaScript
operations count, so supplementary-plane characters occupy two entries.
Stateful code (the limiter's per-identifier bucket map, the DNS resolver,
the streamed response body) is modelled by explicit state passing: the
bucket, the resolver's record list and the list of body chunks are
arguments.
-/

set_option maxRecDepth 10000

namespace MdCheck

/-- Strings of the JavaScript runtime, modelled as lists of code points. -/
abbrev Str := List Char

/-! ### JavaScript string primitives -/

/-- Whitespace for JavaScript `String.prototype.trim` : the ECMAScript
WhiteSpace and LineTerminator sets. -/
def jsWhitespace (c : Char) : Bool :=
  c.toNat = 0x20 || c.toNat = 0x9 || c.toNat = 0xA || c.toNat = 0xD ||
  c.toNat = 0xB || c.toNat = 0xC || c.toNat = 0xA0 || c.toNat = 0xFEFF ||
  c.toNat = 0x1680 || (0x2000 ≤ c.toNat && c.toNat ≤ 0x200A) ||
  c.toNat = 0x2028 || c.toNat = 0x2029 ||
  c.toNat = 0x202F || c.toNat = 0x205F || c.toNat = 0x3000

/-- Model of JavaScript `String.prototype.trim`. -/
def jsTrim (s : Str) : Str :=
  ((s.dropWhile jsWhitespace).reverse.dropWhile jsWhitespace).reverse

/-- Model of JavaScript `str.split(sep)` for a one-character separator. -/
def splitOnChar (sep : Char) : Str → List Str
  | [] => [[]]
  | c :: cs =>
    if c = sep then [] :: splitOnChar sep cs
    else
      match splitOnChar sep cs with
      | [] => [[c]]
      | g :: gs => (c :: g) :: gs

/-- Model of JavaScript `String.prototype.includes` (substring test). -/
def jsIncludes (s pat : Str) : Bool :=
  match s with
  | [] => pat.isEmpty
  | _ :: rest => pat.isPrefixOf s || jsIncludes rest pat

/-- Model of JavaScript `String.prototype.toLowerCase` on the ASCII
fragment exercised by the code (hostnames, header values, error names). -/
def lowerStr (s : Str) : Str := s.map Char.toLower

/-! ### Rate limiter (`src/lib/rate-limit`, in-process fallback)

The production branch delegates to the external Upstash service and is
outside the program text; the claims target the in-process fallback.
The module-level `Map` from identifier to timestamp list is modelled by
passing the queried identifier's bucket explicitly: `enforceRateLimit`
takes the stored bucket and the current time `Date.now()` and returns the
decision together with the bucket written back for that identifier. -/

def LIMIT : Nat := 30

def WINDOW_MS : Nat := 10 * 60 * 1000

/-- Result record returned by `enforceRateLimit`. -/
structure RateLimitResult where
  success : Bool
  limit : Nat
  remaining : Nat
  reset : Nat
deriving DecidableEq, Repr

/-- The in-process fallback branch of `enforceRateLimit`.  JavaScript
`now - timestamp <= WINDOW_MS` agrees with truncated `Nat` subtraction:
when `timestamp > now` both sides keep the entry.  `fresh[0]` is total in
the source because it is only read when `fresh.length >= LIMIT > 0`;
`headD` mirrors that access.  `Math.max(0, LIMIT - fresh.length)` is
truncated subtraction on `Nat`. -/
def freshOf (bucket : List Nat) (now : Nat) : List Nat :=
  bucket.filter (fun timestamp => now - timestamp ≤ WINDOW_MS)

def enforceRateLimit (bucket : List Nat) (now : Nat) :
    RateLimitResult × List Nat :=
  if LIMIT ≤ (freshOf bucket now).length then
    ({ success := false, limit := LIMIT, remaining := 0,
       reset := (freshOf bucket now).headD 0 + WINDOW_MS }, freshOf bucket now)
  else
    ({ success := true, limit := LIMIT,
       remaining := LIMIT - (freshOf bucket now ++ [now]).length,
       reset := now + WINDOW_MS }, freshOf bucket now ++ [now])

/-- Sequential calls to the limiter for one identifier, threading the
stored bucket. -/
def runLimiter (bucket : List Nat) : List Nat → List RateLimitResult × List Nat
  | [] => ([], bucket)
  | t :: ts =>
    let s := enforceRateLimit bucket t
    let r := runLimiter s.2 ts
    (s.1 :: r.1, r.2)

/-! ### Rate limiter lemmas -/

theorem freshOf_eq_self (bucket : List Nat) (now : Nat)
    (h : ∀ t ∈ bucket, now - t ≤ WINDOW_MS) : freshOf bucket now = bucket := by
  rw [freshOf, List.filter_eq_self]
  intro a ha
  simpa using h a ha

theorem freshOf_eq_nil (bucket : List Nat) (now : Nat)
    (h : ∀ t ∈ bucket, WINDOW_MS < now - t) : freshOf bucket now = [] := by
  rw [freshOf, List.filter_eq_nil_iff]
  intro a ha
  have := h a ha
  simp only [decide_eq_true_eq]
  omega

theorem freshOf_length_le (bucket : List Nat) (now : Nat) :
    (freshOf bucket now).length ≤ bucket.length :=
  List.length_filter_le _ bucket

theorem mem_freshOf (bucket : List Nat) (now t : Nat)
    (h : t ∈ freshOf bucket now) : t ∈ bucket ∧ now - t ≤ WINDOW_MS := by
  rw [freshOf, List.mem_filter] at h
  exact ⟨h.1, by simpa using h.2⟩

theorem enforceRateLimit_reject (bucket : List Nat) (now : Nat)
    (h : LIMIT ≤ (freshOf bucket now).length) :
    enforceRateLimit bucket now =
      ({ success := false, limit := LIMIT, remaining := 0,
         reset := (freshOf bucket now).headD 0 + WINDOW_MS },
       freshOf bucket now) := by
  rw [enforceRateLimit, if_pos h]

theorem enforceRateLimit_allow (bucket : List Nat) (now : Nat)
    (h : ¬ LIMIT ≤ (freshOf bucket now).length) :
    enforceRateLimit bucket now =
      ({ success := true, limit := LIMIT,
         remaining := LIMIT - (freshOf bucket now ++ [now]).length,
         reset := now + WINDOW_MS },
       freshOf bucket now ++ [now]) := by
  rw [enforceRateLimit, if_neg h]

theorem runLimiter_append (bucket xs ys : List Nat) :
    runLimiter bucket (xs ++ ys) =
      ((runLimiter bucket xs).1 ++ (runLimiter (runLimiter bucket xs).2 ys).1,
       (runLimiter (runLimiter bucket xs).2 ys).2) := by
  induction xs generalizing bucket with
  | nil => simp [runLimiter]
  | cons x xs ih => simp [runLimiter, ih]

theorem runLimiter_allPass (ts : List Nat) (bucket : List Nat) (lo : Nat)
    (hb : ∀ t ∈ bucket, lo ≤ t)
    (hts : ∀ t ∈ ts, lo ≤ t ∧ t ≤ lo + WINDOW_MS)
    (hlen : bucket.length + ts.length ≤ LIMIT) :
    (runLimiter bucket ts).1.map (·.success) = List.replicate ts.length true ∧
    (runLimiter bucket ts).2 = bucket ++ ts := by
  induction ts generalizing bucket with
  | nil => simp [runLimiter]
  | cons t ts ih =>
    have hfresh : freshOf bucket t = bucket := by
      apply freshOf_eq_self
      intro a ha
      have h1 : lo ≤ a := hb a ha
      have h2 : t ≤ lo + WINDOW_MS := (hts t (by simp)).2
      omega
    have hlt : ¬ LIMIT ≤ (freshOf bucket t).length := by
      rw [hfresh]
      simp only [List.length_cons] at hlen
      omega
    have hstep := enforceRateLimit_allow bucket t hlt
    rw [hfresh] at hstep
    have hb2 : ∀ x ∈ bucket ++ [t], lo ≤ x := by
      intro x hx
      rcases List.mem_append.mp hx with hx | hx
      · exact hb x hx
      · simp only [List.mem_singleton] at hx
        exact hx ▸ (hts t (by simp)).1
    have hts2 : ∀ x ∈ ts, lo ≤ x ∧ x ≤ lo + WINDOW_MS := fun x hx =>
      hts x (by simp [hx])
    have hlen2 : (bucket ++ [t]).length + ts.length ≤ LIMIT := by
      simp only [List.length_append, List.length_cons, List.length_nil] at hlen ⊢
      omega
    obtain ⟨ih1, ih2⟩ := ih (bucket ++ [t]) hb2 hts2 hlen2
    refine ⟨?_, ?_⟩
    · simp only [runLimiter, hstep, List.map_cons, ih1, List.length_cons,
        List.replicate_succ]
    · simp only [runLimiter, hstep, ih2, List.append_assoc, List.singleton_append]

/-- C8: with the in-process fallback backend, 30 checks within one window
all succeed, the 31st within the same window is rejected with
`remaining = 0`, and once the window has fully elapsed past every counted
event the next check succeeds again.  The call times `ts` all lie in the
window `[lo, lo + WINDOW_MS]`; the bucket for the queried identifier
starts empty.  The identifier itself is irrelevant: the store is keyed
per identifier and only the queried bucket is touched. -/
theorem rate_limit_window_cycle (ts : List Nat) (lo now2 : Nat)
    (hlen : ts.length = 31)
    (hin : ∀ t ∈ ts, lo ≤ t ∧ t ≤ lo + WINDOW_MS)
    (hafter : ∀ t ∈ ts, t + WINDOW_MS < now2) :
    (runLimiter [] ts).1.map (·.success) = List.replicate 30 true ++ [false] ∧
    (runLimiter [] ts).1.getLast?.map (·.remaining) = some 0 ∧
    (enforceRateLimit (runLimiter [] ts).2 now2).1.success = true := by
  obtain ⟨t31, h31⟩ : ∃ t, ts.drop 30 = [t] := by
    apply List.length_eq_one.mp
    simp [hlen]
  have hsplit : ts = ts.take 30 ++ [t31] := by
    conv_lhs => rw [← List.take_append_drop 30 ts, h31]
  have htake : (ts.take 30).length = 30 := by
    simp [hlen]
  have hmem31 : t31 ∈ ts := by
    have : t31 ∈ ts.drop 30 := by simp [h31]
    exact List.drop_subset 30 ts this
  obtain ⟨hp1, hp2⟩ := runLimiter_allPass (ts.take 30) [] lo (by simp)
    (fun x hx => hin x (List.take_subset 30 ts hx))
    (by rw [List.length_nil, htake]; decide)
  rw [List.nil_append] at hp2
  have hfresh31 : freshOf (ts.take 30) t31 = ts.take 30 := by
    apply freshOf_eq_self
    intro t ht
    have h1 : lo ≤ t := (hin t (List.take_subset 30 ts ht)).1
    have h2 : t31 ≤ lo + WINDOW_MS := (hin t31 hmem31).2
    omega
  have hrej := enforceRateLimit_reject (ts.take 30) t31
    (by rw [hfresh31, htake]; decide)
  rw [hfresh31] at hrej
  have hrun31 : runLimiter (ts.take 30) [t31] =
      ([({ success := false, limit := LIMIT, remaining := 0,
           reset := (ts.take 30).headD 0 + WINDOW_MS } : RateLimitResult)],
       ts.take 30) := by
    simp [runLimiter, hrej]
  rw [hsplit, runLimiter_append, hp2, hrun31]
  refine ⟨?_, ?_, ?_⟩
  · simp [hp1, htake]
  · simp
  · have hdrop : freshOf (ts.take 30) now2 = [] := by
      apply freshOf_eq_nil
      intro a ha
      have := hafter a (List.take_subset 30 ts ha)
      have h1 : lo ≤ a := (hin a (List.take_subset 30 ts ha)).1
      omega
    have hopen : ¬ LIMIT ≤ (freshOf (ts.take 30) now2).length := by
      rw [hdrop]
      decide
    rw [enforceRateLimit_allow _ _ hopen]

/-- Witness for `rate_limit_window_cycle` at 31 calls all at time 7 and a
later probe at `7 + WINDOW_MS + 1`. -/
theorem rate_limit_window_cycle_witness :
    (runLimiter [] (List.replicate 31 7)).1.map (·.success) =
      List.replicate 30 true ++ [false] ∧
    (runLimiter [] (List.replicate 31 7)).1.getLast?.map (·.remaining) = some 0 ∧
    (enforceRateLimit (runLimiter [] (List.replicate 31 7)).2
      (7 + WINDOW_MS + 1)).1.success = true :=
  rate_limit_window_cycle (List.replicate 31 7) 7 (7 + WINDOW_MS + 1)
    (by decide)
    (by intro t ht; simp only [List.eq_of_mem_replicate ht]; omega)
    (by intro t ht; simp only [List.eq_of_mem_replicate ht]; omega)

/-- C7 counterexample: two calls at times `0` and `1000` from an empty
bucket.  The second call is allowed; the counted events are `[0, 1000]`,
so the oldest counted event exits the window at `0 + WINDOW_MS`, but the
returned `reset` is `1000 + WINDOW_MS`. -/
theorem rate_limit_reset_cex :
    (enforceRateLimit (enforceRateLimit [] 0).2 1000).1.success = true ∧
    (enforceRateLimit (enforceRateLimit [] 0).2 1000).2 = [0, 1000] ∧
    (enforceRateLimit (enforceRateLimit [] 0).2 1000).1.reset = 1000 + WINDOW_MS ∧
    (enforceRateLimit (enforceRateLimit [] 0).2 1000).2.headD 0 + WINDOW_MS ≠
      1000 + WINDOW_MS := by
  decide

/-- C7 as amended: the `reset` field equals the oldest counted event's
window-exit time only for rejected requests; for allowed requests it is
`now + WINDOW_MS`, the exit time of the event admitted by the call
itself. -/
theorem rate_limit_reset (bucket : List Nat) (now : Nat) :
    ((enforceRateLimit bucket now).1.success = false →
      (enforceRateLimit bucket now).1.reset =
        (enforceRateLimit bucket now).2.headD 0 + WINDOW_MS) ∧
    ((enforceRateLimit bucket now).1.success = true →
      (enforceRateLimit bucket now).1.reset = now + WINDOW_MS) := by
  by_cases h : LIMIT ≤ (freshOf bucket now).length
  · rw [enforceRateLimit_reject bucket now h]
    simp
  · rw [enforceRateLimit_allow bucket now h]
    simp

/-- Witness for `rate_limit_reset` at the empty bucket and time 5. -/
theorem rate_limit_reset_witness :
    (enforceRateLimit [] 5).1.reset = 5 + WINDOW_MS :=
  (rate_limit_reset [] 5).2 (by decide)

/-- C10: one limiter call preserves the stored-bucket invariant: at most
`LIMIT` entries, every entry within the trailing window of the call time,
and a rejected call never adds an entry (the written-back bucket is a
subset of the old one). -/
theorem limiter_store_invariant (bucket : List Nat) (now : Nat)
    (h : bucket.length ≤ LIMIT) :
    (enforceRateLimit bucket now).2.length ≤ LIMIT ∧
    (∀ t ∈ (enforceRateLimit bucket now).2, now - t ≤ WINDOW_MS) ∧
    ((enforceRateLimit bucket now).1.success = false →
      ∀ t ∈ (enforceRateLimit bucket now).2, t ∈ bucket) := by
  have hflen := freshOf_length_le bucket now
  by_cases hfull : LIMIT ≤ (freshOf bucket now).length
  · rw [enforceRateLimit_reject bucket now hfull]
    refine ⟨by dsimp only; omega, ?_, ?_⟩
    · intro t ht
      exact (mem_freshOf bucket now t ht).2
    · intro _ t ht
      exact (mem_freshOf bucket now t ht).1
  · rw [enforceRateLimit_allow bucket now hfull]
    refine ⟨?_, ?_, by simp⟩
    · dsimp only
      simp only [List.length_append, List.length_cons, List.length_nil]
      omega
    · intro t ht
      rcases List.mem_append.mp ht with ht | ht
      · exact (mem_freshOf bucket now t ht).2
      · simp only [List.mem_singleton] at ht
        omega

/-- Witness for `limiter_store_invariant` at the singleton bucket `[2]`
and time `4`. -/
theorem limiter_store_invariant_witness :
    (enforceRateLimit [2] 4).2.length ≤ LIMIT ∧
    (∀ t ∈ (enforceRateLimit [2] 4).2, 4 - t ≤ WINDOW_MS) ∧
    ((enforceRateLimit [2] 4).1.success = false →
      ∀ t ∈ (enforceRateLimit [2] 4).2, t ∈ [2]) :=
  limiter_store_invariant [2] 4 (by decide)


/-! ### User-agent sanitizer (`sanitizeUserAgent` in the route handler)

The `userAgent` field is arbitrary JSON free text and may contain
supplementary-plane characters, and the sanitizer measures and cuts the
string with `slice(0, 220)`, which counts UTF-16 code units.  This model
therefore works on the string's UTF-16 code-unit sequence
(`List Nat`).  The whitespace set of `trim` and the `[\r\n\t]` class of
the replacement are BMP code points and never surrogate halves, so the
per-unit tests below coincide with the per-code-point behaviour of the
JavaScript string methods, while `take 220` coincides with
`slice(0, 220)` on every input. -/

/-- ECMAScript WhiteSpace and LineTerminator, as UTF-16 code units. -/
def jsWhitespaceU (u : Nat) : Bool :=
  u = 0x20 || u = 0x9 || u = 0xA || u = 0xD ||
  u = 0xB || u = 0xC || u = 0xA0 || u = 0xFEFF ||
  u = 0x1680 || (0x2000 ≤ u && u ≤ 0x200A) ||
  u = 0x2028 || u = 0x2029 ||
  u = 0x202F || u = 0x205F || u = 0x3000

/-- `String.prototype.trim` on the code-unit sequence. -/
def jsTrimU (s : List Nat) : List Nat :=
  ((s.dropWhile jsWhitespaceU).reverse.dropWhile jsWhitespaceU).reverse

/-- Default identifying User-Agent returned for empty or absent input
(ASCII, so code units coincide with code points). -/
def DEFAULT_UA : List Nat :=
  (("Mozilla/5.0 (compatible; MD-Checker/1.0; +https://md-check.dotversis.com)").data).map
    Char.toNat

/-- One step of `input.replace(/[\r\n\t]/g, " ")`. -/
def replaceCtlCharU (u : Nat) : Nat :=
  if u = 0xD || u = 0xA || u = 0x9 then 0x20 else u

/-- Model of `sanitizeUserAgent`.  `none` is an absent `userAgent` field;
`!input || !input.trim()` is the empty-or-whitespace test;
`cleaned.slice(0, 220)` is `take 220` on the code-unit sequence. -/
def sanitizeUserAgent (input : Option (List Nat)) : List Nat :=
  match input with
  | none => DEFAULT_UA
  | some s =>
    if s.isEmpty || (jsTrimU s).isEmpty then DEFAULT_UA
    else (jsTrimU (s.map replaceCtlCharU)).take 220

theorem jsTrimU_eq_nil_iff (l : List Nat) :
    jsTrimU l = [] ↔ ∀ u ∈ l, jsWhitespaceU u := by
  rw [jsTrimU, List.reverse_eq_nil_iff, List.dropWhile_eq_nil_iff]
  constructor
  · intro h u hu
    rcases List.mem_append.mp ((List.takeWhile_append_dropWhile
        (p := jsWhitespaceU) (l := l)) ▸ hu) with hu | hu
    · exact List.mem_takeWhile_imp hu
    · exact h u (List.mem_reverse.mpr hu)
  · intro h u hu
    exact h u (List.dropWhile_subset _ (List.mem_reverse.mp hu))

theorem replaceCtlCharU_whitespace (u : Nat) :
    jsWhitespaceU (replaceCtlCharU u) = jsWhitespaceU u := by
  rw [replaceCtlCharU]
  split
  next h =>
    rcases Bool.or_eq_true_iff.mp h with h | h
    · rcases Bool.or_eq_true_iff.mp h with h | h <;>
        simp only [decide_eq_true_eq] at h <;> subst h <;> decide
    · simp only [decide_eq_true_eq] at h
      subst h
      decide
  next => rfl

/-- C9 counterexample: the NUL control character passes through the
sanitizer untouched, so the sanitizer does not strip control characters
in general (only CR, LF and TAB are replaced). -/
theorem sanitize_user_agent_cex :
    sanitizeUserAgent (some [0]) = [0] ∧ (0 : Nat) < 32 := by
  constructor
  · decide
  · decide

/-- C9 as amended: the sanitizer replaces CR, LF and TAB with spaces,
trims, and caps the length at 220 UTF-16 code units (the unit of
JavaScript string length and `slice`); empty, whitespace-only or absent
input yields the default identifying string; the output is never empty
and never longer than 220 units.  Control characters other than CR, LF
and TAB are not stripped. -/
theorem sanitize_user_agent_props (input : Option (List Nat)) :
    sanitizeUserAgent input ≠ [] ∧
    (sanitizeUserAgent input).length ≤ 220 ∧
    (input = none → sanitizeUserAgent input = DEFAULT_UA) ∧
    (∀ s, input = some s → (s = [] ∨ jsTrimU s = []) →
      sanitizeUserAgent input = DEFAULT_UA) ∧
    (∀ s, input = some s → s ≠ [] → jsTrimU s ≠ [] →
      sanitizeUserAgent input = (jsTrimU (s.map replaceCtlCharU)).take 220) := by
  have hdef1 : DEFAULT_UA ≠ [] := by decide
  have hdef2 : DEFAULT_UA.length ≤ 220 := by decide
  match input with
  | none => exact ⟨hdef1, hdef2, fun _ => rfl, by simp, by simp⟩
  | some s =>
    by_cases hq : (s.isEmpty || (jsTrimU s).isEmpty) = true
    · have hval : sanitizeUserAgent (some s) = DEFAULT_UA := by
        rw [sanitizeUserAgent, if_pos hq]
      rw [hval]
      refine ⟨hdef1, hdef2, by simp, fun t _ _ => rfl, fun t ht ht1 ht2 => ?_⟩
      injection ht with ht
      subst ht
      rcases Bool.or_eq_true_iff.mp hq with h | h
      · exact absurd (List.isEmpty_iff.mp h) ht1
      · exact absurd (List.isEmpty_iff.mp h) ht2
    · have hval : sanitizeUserAgent (some s) =
          (jsTrimU (s.map replaceCtlCharU)).take 220 := by
        rw [sanitizeUserAgent, if_neg hq]
      have hs2 : jsTrimU s ≠ [] := by
        intro h
        exact hq (by simp [List.isEmpty_iff, h])
      obtain ⟨u, hus, huw⟩ : ∃ u ∈ s, ¬ jsWhitespaceU u := by
        by_contra h
        push_neg at h
        exact hs2 ((jsTrimU_eq_nil_iff s).mpr (by simpa using h))
      have hmapped : jsTrimU (s.map replaceCtlCharU) ≠ [] := by
        intro h
        have := (jsTrimU_eq_nil_iff _).mp h (replaceCtlCharU u)
          (List.mem_map_of_mem _ hus)
        rw [replaceCtlCharU_whitespace] at this
        exact huw (by simpa using this)
      rw [hval]
      refine ⟨?_, ?_, by simp, fun t ht hor => ?_, fun t ht _ _ => ?_⟩
      · intro h
        rcases List.take_eq_nil_iff.mp h with h | h
        · exact absurd h (by decide)
        · exact hmapped h
      · rw [List.length_take]
        exact min_le_left _ _
      · injection ht with ht
        subst ht
        exfalso
        apply hq
        rcases hor with h | h <;> simp [List.isEmpty_iff, h]
      · injection ht with ht
        subst ht
        rfl

/-- Witness for `sanitize_user_agent_props` at absent input. -/
theorem sanitize_user_agent_witness :
    sanitizeUserAgent none = DEFAULT_UA :=
  (sanitize_user_agent_props none).2.2.1 rfl

/-! ### Probe-failure translation (the `catch` branch of `POST`) -/

/-- The error thrown by `fetch`, as inspected by the handler. -/
structure JsError where
  name : Str
  message : Str

/-- The handler predicate: `error.name === "TimeoutError" ||
error.name === "AbortError" || error.message.toLowerCase().includes("timeout")`. -/
def isTimeoutErrorHeuristic (e : JsError) : Bool :=
  e.name = ("TimeoutError").data || e.name = ("AbortError").data ||
  jsIncludes (lowerStr e.message) ("timeout").data

/-- The JSON failure response assembled in the `catch` branch. -/
structure FailureResponse where
  status : Nat
  error : Str
  details : Str

def probeFailureResponse (e : JsError) : FailureResponse :=
  { status := if isTimeoutErrorHeuristic e then 504 else 502,
    error := if isTimeoutErrorHeuristic e then
        ("Request timed out after 10 seconds.").data
      else ("Failed to fetch target URL.").data,
    details := e.message }

/-- Modelled from the spec: the "timeout mechanism" is the hard timeout,
`AbortSignal.timeout(FETCH_TIMEOUT_MS)`; per the WHATWG DOM standard that
signal aborts with a DOMException whose `name` is `"TimeoutError"`, so a
failure is caused by the timeout mechanism exactly when the thrown
error's name is `"TimeoutError"`. -/
def causedByTimeoutMechanism (e : JsError) : Bool :=
  e.name = ("TimeoutError").data

/-- C6 counterexample: a DNS failure for the host `timeout.example.com`
is not caused by the timeout mechanism, yet the handler maps it to 504
because its message contains the substring "timeout". -/
theorem probe_failure_status_cex :
    (probeFailureResponse
      ⟨("Error").data, ("getaddrinfo ENOTFOUND timeout.example.com").data⟩).status
        = 504 ∧
    causedByTimeoutMechanism
      ⟨("Error").data, ("getaddrinfo ENOTFOUND timeout.example.com").data⟩
        = false := by
  constructor
  · rfl
  · rfl

/-- C6 as amended: the handler returns 504 exactly when the error's name
is `TimeoutError` or `AbortError` or its message contains "timeout"
case-insensitively, and 502 otherwise; every failure actually caused by
the timeout mechanism gets 504; and both responses carry the underlying
error text in `details`. -/
theorem probe_failure_status (e : JsError) :
    ((probeFailureResponse e).status = 504 ↔ isTimeoutErrorHeuristic e = true) ∧
    ((probeFailureResponse e).status = 502 ↔ isTimeoutErrorHeuristic e = false) ∧
    (probeFailureResponse e).details = e.message ∧
    (causedByTimeoutMechanism e = true → (probeFailureResponse e).status = 504) := by
  by_cases h : isTimeoutErrorHeuristic e = true
  · refine ⟨by simp [probeFailureResponse, h], by simp [probeFailureResponse, h],
      rfl, fun _ => by simp [probeFailureResponse, h]⟩
  · refine ⟨by simp [probeFailureResponse, h], by simp [probeFailureResponse, h],
      rfl, fun hc => ?_⟩
    exfalso
    apply h
    rw [isTimeoutErrorHeuristic]
    rw [causedByTimeoutMechanism] at hc
    rw [hc]
    rfl

/-- Witness for `probe_failure_status`: a genuine timeout error. -/
theorem probe_failure_status_witness :
    (probeFailureResponse ⟨("TimeoutError").data, ("x").data⟩).status = 504 :=
  (probe_failure_status ⟨("TimeoutError").data, ("x").data⟩).2.2.2 (by decide)


/-! ### Verdict classifier (`isMarkdownContentType` and the verdict logic
of `POST`) -/

def reasonFound : Str :=
  ("Markdown detected: 2xx response with Content-Type text/markdown.").data

def reasonRedirect : Str :=
  ("Redirect response received and redirects are intentionally disabled.").data

def reasonNon2xx : Str := ("Target returned a non-2xx status.").data

def reasonIgnored : Str :=
  ("Target ignored markdown negotiation or returned a different content type.").data

/-- The `response.ok` property of a fetch `Response`: status in `[200, 300)`. -/
def responseOk (status : Nat) : Bool := 200 ≤ status && status < 300

/-- Model of `isMarkdownContentType`: `null` is `none`; otherwise a
case-insensitive substring test for `"text/markdown"`. -/
def isMarkdownContentType : Option Str → Bool
  | none => false
  | some ct => jsIncludes (lowerStr ct) (("text/markdown").data)

/-- The `found` flag computed by `POST`:
`response.ok && isMarkdownContentType(contentType)`. -/
def verdictFound (status : Nat) (contentType : Option Str) : Bool :=
  responseOk status && isMarkdownContentType contentType

/-- The `reason` chain computed by `POST`. -/
def verdictReason (status : Nat) (contentType : Option Str) : Str :=
  if verdictFound status contentType then reasonFound
  else if 300 ≤ status && status < 400 then reasonRedirect
  else if !responseOk status then reasonNon2xx
  else reasonIgnored

/-- The verdict pair `{ found, reason }`, a function of the status code
and the content-type header only. -/
def classifyVerdict (status : Nat) (contentType : Option Str) : Bool × Str :=
  (verdictFound status contentType, verdictReason status contentType)

theorem isPrefixOf_iff_exists (pat s : Str) :
    pat.isPrefixOf s = true ↔ ∃ t, s = pat ++ t := by
  induction pat generalizing s with
  | nil => simp [List.isPrefixOf]
  | cons a as ih =>
    match s with
    | [] => simp [List.isPrefixOf]
    | b :: bs =>
      simp only [List.isPrefixOf, Bool.and_eq_true, beq_iff_eq, ih,
        List.cons_append, List.cons.injEq]
      constructor
      · rintro ⟨rfl, t, rfl⟩
        exact ⟨t, rfl, rfl⟩
      · rintro ⟨t, rfl, rfl⟩
        exact ⟨rfl, t, rfl⟩

theorem jsIncludes_iff (s pat : Str) :
    jsIncludes s pat = true ↔ ∃ t u, s = t ++ pat ++ u := by
  induction s with
  | nil =>
    simp only [jsIncludes, List.isEmpty_iff]
    constructor
    · rintro rfl
      exact ⟨[], [], rfl⟩
    · rintro ⟨t, u, h⟩
      rcases List.append_eq_nil.mp h.symm with ⟨h1, h2⟩
      rcases List.append_eq_nil.mp h1 with ⟨_, h3⟩
      exact h3
  | cons c rest ih =>
    simp only [jsIncludes, Bool.or_eq_true, ih, isPrefixOf_iff_exists]
    constructor
    · rintro (⟨t, ht⟩ | ⟨t, u, ht⟩)
      · exact ⟨[], t, by simpa using ht⟩
      · exact ⟨c :: t, u, by simp [ht]⟩
    · rintro ⟨t, u, ht⟩
      match t, ht with
      | [], ht => exact Or.inl ⟨u, by simpa using ht⟩
      | d :: t, ht =>
        rw [List.cons_append, List.cons_append, List.cons.injEq] at ht
        exact Or.inr ⟨t, u, ht.2⟩

/-- C4: the verdict is `found = true` exactly when the status is in
`[200, 300)` and the content-type header, lowercased, contains the
substring `"text/markdown"` (so any charset or parameter suffix is
ignored); the reason string is chosen by the first matching rule: found,
else a 3xx status gives the redirect reason, else a non-2xx status gives
the non-2xx reason, else the ignored-negotiation reason.  The verdict is
a function of the status code and content-type header alone. -/
theorem verdict_classifier (status : Nat) (ct : Option Str) :
    ((classifyVerdict status ct).1 = true ↔
      (200 ≤ status ∧ status < 300 ∧
        ∃ s t u, ct = some s ∧ lowerStr s = t ++ ("text/markdown").data ++ u)) ∧
    ((classifyVerdict status ct).1 = true →
      (classifyVerdict status ct).2 = reasonFound) ∧
    ((classifyVerdict status ct).1 = false → 300 ≤ status → status < 400 →
      (classifyVerdict status ct).2 = reasonRedirect) ∧
    ((classifyVerdict status ct).1 = false → ¬ (300 ≤ status ∧ status < 400) →
      ¬ (200 ≤ status ∧ status < 300) →
      (classifyVerdict status ct).2 = reasonNon2xx) ∧
    ((classifyVerdict status ct).1 = false → 200 ≤ status → status < 300 →
      (classifyVerdict status ct).2 = reasonIgnored) := by
  refine ⟨?_, ?_, ?_, ?_, ?_⟩
  · rw [classifyVerdict]
    match ct with
    | none =>
      simp [verdictFound, isMarkdownContentType]
    | some cts =>
      simp only [verdictFound, responseOk, isMarkdownContentType,
        Bool.and_eq_true, decide_eq_true_eq, jsIncludes_iff]
      constructor
      · rintro ⟨⟨h1, h2⟩, t, u, h3⟩
        exact ⟨h1, h2, cts, t, u, rfl, h3⟩
      · rintro ⟨h1, h2, s, t, u, hs, h3⟩
        injection hs with hs
        subst hs
        exact ⟨⟨h1, h2⟩, t, u, h3⟩
  · intro h
    rw [classifyVerdict] at h ⊢
    rw [verdictReason, if_pos h]
  · intro h h3 h4
    rw [classifyVerdict] at h ⊢
    dsimp only at h
    rw [verdictReason, if_neg (by simp [h]), if_pos (by simp [h3, h4])]
  · intro h h3 h2
    rw [classifyVerdict] at h ⊢
    dsimp only at h
    have hok : responseOk status = false := by
      rw [responseOk]
      by_contra hc
      rw [Bool.not_eq_false, Bool.and_eq_true, decide_eq_true_eq,
        decide_eq_true_eq] at hc
      exact h2 hc
    rw [verdictReason, if_neg (by simp [h]),
      if_neg (by simp only [Bool.and_eq_true, decide_eq_true_eq]; tauto),
      if_pos (by simp [hok])]
  · intro h h1 h2
    rw [classifyVerdict] at h ⊢
    dsimp only at h
    have hok : responseOk status = true := by
      simp [responseOk, h1, h2]
    rw [verdictReason, if_neg (by simp [h]),
      if_neg (by simp only [Bool.and_eq_true, decide_eq_true_eq]; omega),
      if_neg (by simp [hok])]

/-- Witness for `verdict_classifier`: a 404 with no content type gets the
non-2xx reason. -/
theorem verdict_classifier_witness :
    (classifyVerdict 404 none).2 = reasonNon2xx :=
  (verdict_classifier 404 none).2.2.2.1 (by decide) (by decide) (by decide)


/-! ### JavaScript `Number(string)` and the IPv4 classifier
(`isPrivateIPv4` in `src/lib/security`) -/

/-- Values of the JavaScript number type as produced by `Number(string)`.
Finite values are kept exact as rationals; the classifier compares them
only against small integer thresholds, where exact and double-rounded
evaluation agree.  The two infinities cover the `Infinity` literals and
overflowing exponents (which compare identically against those
thresholds).  `NaN` is `none` at the use sites. -/
inductive JsNum where
  | fin (q : ℚ)
  | posInf
  | negInf
deriving DecidableEq

/-- JavaScript `x === n` for a small integer threshold `n`. -/
def JsNum.eqNat : JsNum → Nat → Bool
  | .fin q, n => q = (n : ℚ)
  | _, _ => false

/-- JavaScript `x >= n`. -/
def JsNum.geNat : JsNum → Nat → Bool
  | .fin q, n => (n : ℚ) ≤ q
  | .posInf, _ => true
  | .negInf, _ => false

/-- JavaScript `x <= n`. -/
def JsNum.leNat : JsNum → Nat → Bool
  | .fin q, n => q ≤ (n : ℚ)
  | .posInf, _ => false
  | .negInf, _ => true

def digitVal (c : Char) : Nat := c.toNat - 48

def natOfDigits (l : Str) : Nat := l.foldl (fun a c => 10 * a + digitVal c) 0

def isHexChar (c : Char) : Bool :=
  c.isDigit || ('a' ≤ c && c ≤ 'f') || ('A' ≤ c && c ≤ 'F')

def hexVal (c : Char) : Nat :=
  if c.isDigit then c.toNat - 48
  else if 'a' ≤ c && c ≤ 'f' then c.toNat - 87
  else c.toNat - 55

def natOfHex (l : Str) : Nat := l.foldl (fun a c => 16 * a + hexVal c) 0

def isOctChar (c : Char) : Bool := '0' ≤ c && c ≤ '7'

def natOfOct (l : Str) : Nat := l.foldl (fun a c => 8 * a + digitVal c) 0

def isBinChar (c : Char) : Bool := c = '0' || c = '1'

def natOfBin (l : Str) : Nat := l.foldl (fun a c => 2 * a + digitVal c) 0

/-- Split a string at the first character satisfying `p`, dropping it. -/
def breakAtFirst (p : Char → Bool) : Str → Option (Str × Str)
  | [] => none
  | c :: cs =>
    if p c then some ([], cs)
    else (breakAtFirst p cs).map (fun r => (c :: r.1, r.2))

/-- The `DecimalDigits [. DecimalDigits]` part of a JavaScript decimal
literal (either side of the dot may be empty, not both). -/
def parseDecMantissa (m : Str) : Option ℚ :=
  match breakAtFirst (fun c => c = '.') m with
  | none =>
    if m ≠ [] ∧ m.all Char.isDigit then some ((natOfDigits m : Nat) : ℚ)
    else none
  | some (ipart, fpart) =>
    if (ipart ≠ [] ∨ fpart ≠ []) ∧ ipart.all Char.isDigit ∧
        fpart.all Char.isDigit then
      some ((natOfDigits ipart : Nat) +
        ((natOfDigits fpart : Nat) : ℚ) / (10 : ℚ) ^ fpart.length)
    else none

/-- The signed exponent of a JavaScript decimal literal. -/
def parseExponent (e : Str) : Option ℤ :=
  if e.take 1 = ['+'] then
    if e.drop 1 ≠ [] ∧ (e.drop 1).all Char.isDigit then
      some ((natOfDigits (e.drop 1) : Nat) : ℤ)
    else none
  else if e.take 1 = ['-'] then
    if e.drop 1 ≠ [] ∧ (e.drop 1).all Char.isDigit then
      some (-((natOfDigits (e.drop 1) : Nat) : ℤ))
    else none
  else
    if e ≠ [] ∧ e.all Char.isDigit then some ((natOfDigits e : Nat) : ℤ)
    else none

/-- An unsigned JavaScript decimal literal, `Mantissa [e Exponent]`. -/
def parseDecLit (u : Str) : Option ℚ :=
  match breakAtFirst (fun c => c = 'e' || c = 'E') u with
  | none => parseDecMantissa u
  | some (m, e) =>
    match parseDecMantissa m, parseExponent e with
    | some q, some x => some (q * (10 : ℚ) ^ x)
    | _, _ => none

/-- The optionally signed part of `Number(string)`: `Infinity` or a
decimal literal, with the sign applied. -/
def jsSignedTail (u : Str) (neg : Bool) : Option JsNum :=
  if u = ("Infinity").data then some (if neg then .negInf else .posInf)
  else (parseDecLit u).map (fun q => .fin (if neg then -q else q))

/-- Model of JavaScript `Number(string)` (the `StringNumericLiteral`
grammar): trim; empty means `0`; unsigned hex, octal and binary
literals; otherwise an optionally signed decimal literal or `Infinity`;
anything else is `NaN` (`none`). -/
def jsNumber (s : Str) : Option JsNum :=
  let t := jsTrim s
  if t = [] then some (.fin 0)
  else if t.take 2 = ['0', 'x'] ∨ t.take 2 = ['0', 'X'] then
    if t.drop 2 ≠ [] ∧ (t.drop 2).all isHexChar then
      some (.fin ((natOfHex (t.drop 2) : Nat) : ℚ))
    else none
  else if t.take 2 = ['0', 'o'] ∨ t.take 2 = ['0', 'O'] then
    if t.drop 2 ≠ [] ∧ (t.drop 2).all isOctChar then
      some (.fin ((natOfOct (t.drop 2) : Nat) : ℚ))
    else none
  else if t.take 2 = ['0', 'b'] ∨ t.take 2 = ['0', 'B'] then
    if t.drop 2 ≠ [] ∧ (t.drop 2).all isBinChar then
      some (.fin ((natOfBin (t.drop 2) : Nat) : ℚ))
    else none
  else if t.take 1 = ['+'] then jsSignedTail (t.drop 1) false
  else if t.take 1 = ['-'] then jsSignedTail (t.drop 1) true
  else jsSignedTail t false

/-- Model of `isPrivateIPv4`: `ip.split(".").map(Number)`; fail closed
when the part count is not 4 or any part is `NaN`; otherwise the range
checks on the first two parts `a` and `b`. -/
def isPrivateIPv4 (ip : Str) : Bool :=
  match (splitOnChar '.' ip).map jsNumber with
  | [some a, some b, some _, some _] =>
    a.eqNat 10 || a.eqNat 127 || a.eqNat 0 ||
    (a.eqNat 169 && b.eqNat 254) ||
    (a.eqNat 172 && b.geNat 16 && b.leNat 31) ||
    (a.eqNat 192 && b.eqNat 168) ||
    (a.eqNat 100 && b.geNat 64 && b.leNat 127) ||
    a.geNat 224
  | _ => true

/-- Spec-side reading of "parses as exactly four dot-separated numeric
octets": four dot-separated parts, each a non-empty digit string with
value at most 255, paired with the four octet values. -/
def numericOctet (g : Str) : Bool :=
  !g.isEmpty && g.all Char.isDigit && natOfDigits g ≤ 255

def v4Octets (s : Str) : Option (Nat × Nat × Nat × Nat) :=
  match splitOnChar '.' s with
  | [a, b, c, d] =>
    if numericOctet a && numericOctet b && numericOctet c && numericOctet d then
      some (natOfDigits a, natOfDigits b, natOfDigits c, natOfDigits d)
    else none
  | _ => none


/-! ### `Number` on digit strings, and the C3 theorems -/

theorem dropWhile_eq_self_of (p : Char → Bool) (l : Str)
    (h : ∀ c ∈ l, p c = false) : l.dropWhile p = l := by
  cases l with
  | nil => rfl
  | cons c cs =>
    rw [List.dropWhile_cons, if_neg]
    simp [h c (by simp)]

theorem jsTrim_eq_self_of (l : Str)
    (h : ∀ c ∈ l, jsWhitespace c = false) : jsTrim l = l := by
  rw [jsTrim, dropWhile_eq_self_of _ _ h, dropWhile_eq_self_of,
    List.reverse_reverse]
  intro c hc
  exact h c (List.mem_reverse.mp hc)

theorem isDigit_toNat_bounds (c : Char) (h : c.isDigit = true) :
    48 ≤ c.toNat ∧ c.toNat ≤ 57 := by
  simpa only [Char.isDigit, Bool.and_eq_true, decide_eq_true_eq] using h

theorem jsWhitespace_false_of_isDigit (c : Char) (h : c.isDigit = true) :
    jsWhitespace c = false := by
  have hb := isDigit_toNat_bounds c h
  cases hjw : jsWhitespace c with
  | false => rfl
  | true =>
    exfalso
    simp only [jsWhitespace, Bool.or_eq_true, Bool.and_eq_true,
      decide_eq_true_eq] at hjw
    omega

theorem ne_of_isDigit_of_not (x d : Char) (hx : x.isDigit = true)
    (hd : d.isDigit = false) : ¬ x = d := by
  intro h
  rw [h, hd] at hx
  cases hx

theorem take2_ne_of_digits (l : Str) (hd : ∀ x ∈ l, x.isDigit = true)
    (a b : Char) (hb : b.isDigit = false) : ¬ l.take 2 = [a, b] := by
  intro h
  match l, h with
  | x :: y :: rest, h =>
    simp only [List.take, List.cons.injEq] at h
    exact ne_of_isDigit_of_not y b (hd y (by simp)) hb h.2.1
  | [x], h => simp [List.take] at h

theorem take1_ne_of_digits (l : Str) (hd : ∀ x ∈ l, x.isDigit = true)
    (a : Char) (ha : a.isDigit = false) : ¬ l.take 1 = [a] := by
  intro h
  match l, h with
  | x :: rest, h =>
    simp only [List.take, List.cons.injEq] at h
    exact ne_of_isDigit_of_not x a (hd x (by simp)) ha h.1

theorem breakAtFirst_eq_none (p : Char → Bool) (l : Str)
    (h : ∀ c ∈ l, p c = false) : breakAtFirst p l = none := by
  induction l with
  | nil => rfl
  | cons c cs ih =>
    rw [breakAtFirst, if_neg (by simp [h c (by simp)]),
      ih (fun x hx => h x (by simp [hx]))]
    rfl

/-- `Number` on a non-empty all-digit string is its decimal value. -/
theorem jsNumber_digits (l : Str) (h1 : l ≠ [])
    (h2 : l.all Char.isDigit = true) :
    jsNumber l = some (.fin ((natOfDigits l : Nat) : ℚ)) := by
  have hdig : ∀ x ∈ l, x.isDigit = true := by
    simpa only [List.all_eq_true] using h2
  have hnw : ∀ x ∈ l, jsWhitespace x = false := fun x hx =>
    jsWhitespace_false_of_isDigit x (hdig x hx)
  have htrim : jsTrim l = l := jsTrim_eq_self_of _ hnw
  rw [jsNumber]
  simp only [htrim]
  rw [if_neg h1]
  rw [if_neg, if_neg, if_neg, if_neg, if_neg]
  · rw [jsSignedTail, if_neg, parseDecLit,
      breakAtFirst_eq_none _ _ (fun c hc => by
        have := hdig c hc
        simp only [Bool.or_eq_false_iff, decide_eq_false_iff_not]
        exact ⟨ne_of_isDigit_of_not c 'e' this (by decide),
          ne_of_isDigit_of_not c 'E' this (by decide)⟩),
      parseDecMantissa,
      breakAtFirst_eq_none _ _ (fun c hc => by
        simp only [decide_eq_false_iff_not]
        exact ne_of_isDigit_of_not c '.' (hdig c hc) (by decide))]
    · rw [if_pos ⟨h1, by simpa using h2⟩]
      rfl
    · intro h
      have : ('I' : Char).isDigit = true := by
        apply hdig
        rw [h]
        decide
      exact absurd this (by decide)
  · exact take1_ne_of_digits l hdig '-' (by decide)
  · exact take1_ne_of_digits l hdig '+' (by decide)
  · rintro (h | h)
    · exact take2_ne_of_digits l hdig '0' 'b' (by decide) h
    · exact take2_ne_of_digits l hdig '0' 'B' (by decide) h
  · rintro (h | h)
    · exact take2_ne_of_digits l hdig '0' 'o' (by decide) h
    · exact take2_ne_of_digits l hdig '0' 'O' (by decide) h
  · rintro (h | h)
    · exact take2_ne_of_digits l hdig '0' 'x' (by decide) h
    · exact take2_ne_of_digits l hdig '0' 'X' (by decide) h

/-- C3 counterexample: `"1.2.3."` does not parse as four numeric octets
(the last part is empty), yet the classifier returns safe, because
JavaScript `Number("")` is `0` rather than `NaN`, so the parts coerce to
`[1, 2, 3, 0]` and no range matches. -/
theorem ipv4_classifier_cex :
    isPrivateIPv4 (("1.2.3.").data) = false ∧
    v4Octets (("1.2.3.").data) = none := by
  constructor
  · decide
  · decide

/-- Octet facts extracted from the spec-side parser. -/
theorem numericOctet_parts (g : Str) (h : numericOctet g = true) :
    g ≠ [] ∧ g.all Char.isDigit = true := by
  constructor
  · intro hnil
    subst hnil
    exact absurd h (by decide)
  · rw [numericOctet, Bool.and_eq_true, Bool.and_eq_true] at h
    exact h.1.2

/-- C3 as amended: on strings that do parse as exactly four
dot-separated numeric octets `a.b.c.d`, the classifier flags exactly the
claimed ranges.  (Fail-closed holds only for parts that fail `Number`
coercion; parts that are empty or otherwise coercible are classified by
their coerced values — see the counterexample.) -/
theorem ipv4_classifier_ranges (s : Str) (a b c d : Nat)
    (h : v4Octets s = some (a, b, c, d)) :
    isPrivateIPv4 s = true ↔
      (a = 10 ∨ a = 127 ∨ a = 0 ∨ (a = 169 ∧ b = 254) ∨
       (a = 172 ∧ 16 ≤ b ∧ b ≤ 31) ∨ (a = 192 ∧ b = 168) ∨
       (a = 100 ∧ 64 ≤ b ∧ b ≤ 127) ∨ 224 ≤ a) := by
  rw [v4Octets] at h
  split at h
  next pa pb pc pd heq =>
    split at h
    next hoct =>
      rw [Option.some.injEq, Prod.mk.injEq, Prod.mk.injEq, Prod.mk.injEq] at h
      obtain ⟨ha, hb, hc, hd⟩ := h
      rw [Bool.and_eq_true, Bool.and_eq_true, Bool.and_eq_true] at hoct
      obtain ⟨⟨⟨hoct1, hoct2⟩, hoct3⟩, hoct4⟩ := hoct
      obtain ⟨hpa1, hpa2⟩ := numericOctet_parts pa hoct1
      obtain ⟨hpb1, hpb2⟩ := numericOctet_parts pb hoct2
      obtain ⟨hpc1, hpc2⟩ := numericOctet_parts pc hoct3
      obtain ⟨hpd1, hpd2⟩ := numericOctet_parts pd hoct4
      rw [isPrivateIPv4, heq, List.map_cons, List.map_cons, List.map_cons,
        List.map_cons, List.map_nil,
        jsNumber_digits pa hpa1 hpa2, jsNumber_digits pb hpb1 hpb2,
        jsNumber_digits pc hpc1 hpc2, jsNumber_digits pd hpd1 hpd2]
      subst ha hb hc hd
      simp only [JsNum.eqNat, JsNum.geNat, JsNum.leNat, Bool.or_eq_true,
        Bool.and_eq_true, decide_eq_true_eq, Nat.cast_inj, Nat.cast_le]
      constructor
      · intro hcase
        omega
      · intro hcase
        omega
    next => exact absurd h (by simp)
  next => exact absurd h (by simp)

/-- Witness for `ipv4_classifier_ranges` at `10.0.0.1`. -/
theorem ipv4_classifier_ranges_witness :
    isPrivateIPv4 (("10.0.0.1").data) = true :=
  (ipv4_classifier_ranges (("10.0.0.1").data) 10 0 0 1 (by decide)).mpr
    (Or.inl rfl)


/-! ### Node `net.isIP` and the target-safety checks (`src/lib/security`)

`net.isIPv4`/`net.isIPv6` are modelled after Node's address grammar:
strict dotted quads (1-3 decimal digits per octet, no leading zeros,
value at most 255) and RFC-4291 IPv6 text forms (hex groups of 1-4
digits, at most one `::`, an optional trailing dotted quad counting as
two groups, an optional `%zone` suffix of `[0-9a-zA-Z-.:]`). -/

def isV4Octet (g : Str) : Bool :=
  !g.isEmpty && g.length ≤ 3 && g.all Char.isDigit &&
  (g.length = 1 || g.take 1 ≠ ['0']) && natOfDigits g ≤ 255

def isIPv4 (s : Str) : Bool :=
  match splitOnChar '.' s with
  | [a, b, c, d] => isV4Octet a && isV4Octet b && isV4Octet c && isV4Octet d
  | _ => false

def isHexGrp (g : Str) : Bool :=
  !g.isEmpty && g.length ≤ 4 && g.all isHexChar

/-- Count the address groups in a colon-separated side of an IPv6
literal; the final group may be a dotted quad (worth two groups) when
`allowV4` is set, i.e. when the side ends the address. -/
def groupCount : List Str → Bool → Option Nat
  | [], _ => some 0
  | [g], allowV4 =>
    if isHexGrp g then some 1
    else if allowV4 && isIPv4 g then some 2
    else none
  | g :: rest, allowV4 =>
    if isHexGrp g then (groupCount rest allowV4).map (· + 1) else none

def sideCount (l : Str) (allowV4 : Bool) : Option Nat :=
  if l.isEmpty then some 0 else groupCount (splitOnChar ':' l) allowV4

/-- Split at each non-overlapping occurrence of `::`, left to right. -/
def splitOnColonColon : Str → List Str
  | [] => [[]]
  | [c] => [[c]]
  | c :: d :: cs =>
    if c = ':' ∧ d = ':' then [] :: splitOnColonColon cs
    else
      match splitOnColonColon (d :: cs) with
      | [] => [[c]]
      | g :: gs => (c :: g) :: gs

def zoneChar (c : Char) : Bool :=
  c.isDigit || c.isAlpha || c = '-' || c = '.' || c = ':'

def isIPv6NoZone (s : Str) : Bool :=
  match splitOnColonColon s with
  | [whole] => sideCount whole true = some 8
  | [l, r] =>
    match sideCount l false, sideCount r true with
    | some nl, some nr => nl + nr ≤ 7
    | _, _ => false
  | _ => false

def isIPv6 (s : Str) : Bool :=
  match breakAtFirst (fun c => c = '%') s with
  | none => isIPv6NoZone s
  | some (addr, zone) => isIPv6NoZone addr && !zone.isEmpty && zone.all zoneChar

/-- Model of `net.isIP`: 4, 6, or 0. -/
def isIP (s : Str) : Nat :=
  if isIPv4 s then 4 else if isIPv6 s then 6 else 0

/-- Model of `isPrivateIPv6` from `src/lib/security`. -/
def isPrivateIPv6 (ip : Str) : Bool :=
  lowerStr ip = ("::1").data || lowerStr ip = ("::").data ||
  ("fc").data.isPrefixOf (lowerStr ip) ||
  ("fd").data.isPrefixOf (lowerStr ip) ||
  ("fe8").data.isPrefixOf (lowerStr ip) ||
  ("fe9").data.isPrefixOf (lowerStr ip) ||
  ("fea").data.isPrefixOf (lowerStr ip) ||
  ("feb").data.isPrefixOf (lowerStr ip)

/-- Model of `ip.replace("::ffff:", "")`: JavaScript `replace` with a
string pattern rewrites the first occurrence only. -/
def replaceV4MappedOnce : Str → Str
  | [] => []
  | c :: cs =>
    if ("::ffff:").data.isPrefixOf (c :: cs) then (c :: cs).drop 7
    else c :: replaceV4MappedOnce cs

/-- Model of `isPrivateIp` from `src/lib/security`. -/
def isPrivateIp (ip : Str) : Bool :=
  if isIP ip = 4 then isPrivateIPv4 ip
  else if isIP ip = 6 then
    if ("::ffff:").data.isPrefixOf ip ∧ isIP (replaceV4MappedOnce ip) = 4 then
      isPrivateIPv4 (replaceV4MappedOnce ip)
    else isPrivateIPv6 ip
  else true

/-- The four distinct throw sites of `assertSafeTarget`. -/
inductive SafetyError where
  | localTargetBlocked
  | privateIpBlocked
  | dnsResolutionFailed
  | privateNetworkBlocked
deriving DecidableEq, Repr

deriving instance DecidableEq for Except

/-- Model of `assertSafeTarget`.  The answer of
`dns.lookup(host, { all: true, verbatim: true })` is passed in as
`records`, making the function deterministic in the hostname and the
resolver's answer; the loop over records throwing on the first private
address is the `records.any` test (the same error is thrown at every
iteration). -/
def assertSafeTarget (hostname : Str) (records : List Str) :
    Except SafetyError Unit :=
  if lowerStr hostname = ("localhost").data ∨
      (".local").data.isSuffixOf (lowerStr hostname) then
    .error .localTargetBlocked
  else if isIP (lowerStr hostname) ≠ 0 then
    if isPrivateIp (lowerStr hostname) then .error .privateIpBlocked
    else .ok ()
  else if records.length = 0 then .error .dnsResolutionFailed
  else if records.any isPrivateIp then .error .privateNetworkBlocked
  else .ok ()


/-! ### C1 and C2 theorems -/

/-- C1: for hostnames that are not IP literals and are not cut off by
the localhost/`.local` guard (the only hostnames for which the code
performs DNS resolution at all), resolution to at least one private
address aborts with the private-network error even when public addresses
are also present; an empty record set aborts with the resolution-failure
error; and the call returns normally exactly when at least one record
exists and every record is classified safe — no partial-success path. -/
theorem assert_safe_target_dns (hostname : Str) (records : List Str)
    (hip : isIP (lowerStr hostname) = 0)
    (hname : lowerStr hostname ≠ ("localhost").data)
    (hsuf : (".local").data.isSuffixOf (lowerStr hostname) = false) :
    (records.any isPrivateIp = true →
      assertSafeTarget hostname records =
        .error .privateNetworkBlocked) ∧
    (records = [] →
      assertSafeTarget hostname records = .error .dnsResolutionFailed) ∧
    (assertSafeTarget hostname records = .ok () ↔
      records ≠ [] ∧ ∀ r ∈ records, isPrivateIp r = false) := by
  rw [assertSafeTarget, if_neg (by rw [hsuf]; simpa using hname),
    if_neg (by rw [hip]; simp)]
  refine ⟨?_, ?_, ?_⟩
  · intro hany
    rw [if_neg, if_pos hany]
    intro hlen
    rw [List.length_eq_zero.mp hlen] at hany
    simp [List.any_nil] at hany
  · intro hnil
    subst hnil
    simp
  · by_cases hnil : records = []
    · subst hnil
      simp
    · rw [if_neg (by simpa [List.length_eq_zero] using hnil)]
      by_cases hany : records.any isPrivateIp = true
      · rw [if_pos hany]
        simp only [List.any_eq_true] at hany
        obtain ⟨r, hr, hrp⟩ := hany
        constructor
        · intro hc
          cases hc
        · intro ⟨_, hall⟩
          rw [hall r hr] at hrp
          cases hrp
      · rw [if_neg hany]
        simp only [Bool.not_eq_true, List.any_eq_false] at hany
        exact ⟨fun _ => ⟨hnil, fun r hr => hany r hr⟩, fun _ => rfl⟩

/-- Witness for `assert_safe_target_dns`: `example.com` resolving to one
public address mixed with one private address is blocked. -/
theorem assert_safe_target_dns_witness :
    assertSafeTarget (("example.com").data)
      [("93.184.216.34").data, ("10.0.0.1").data] =
      .error .privateNetworkBlocked :=
  (assert_safe_target_dns (("example.com").data)
    [("93.184.216.34").data, ("10.0.0.1").data]
    (by decide) (by decide) (by decide)).1 (by decide)

/-- C2 counterexample: the WHATWG URL parser serializes IPv6 hosts in
brackets, so the hostname of `http://[::1]/` is `[::1]`.  The underlying
literal `::1` is loopback — `isPrivateIPv6` flags it — yet
`assertSafeTarget` does not classify the literal directly and does not
fail on it by classification: `net.isIP` does not recognise the
bracketed spelling, so the DNS branch is consulted and the outcome
depends on the resolver's answer (the record list, an environment
input): no answer gives the resolution-failure error, not a
private-address rejection, and a (hypothetical) public answer is even
accepted.  This contradicts "classifies the literal directly without
any DNS lookup" and "fails for every such literal whose (embedded)
address lies in a private range". -/
theorem ip_literal_classification_cex :
    isPrivateIPv6 (("::1").data) = true ∧
    isIP (("[::1]").data) = 0 ∧
    assertSafeTarget (("[::1]").data) [] = .error .dnsResolutionFailed ∧
    assertSafeTarget (("[::1]").data) [("1.2.3.4").data] = .ok () := by
  refine ⟨by decide, by decide, by decide, by decide⟩

/-! ### Split and membership lemmas for the address grammar -/

theorem splitOnChar_ne_nil (sep : Char) (s : Str) : splitOnChar sep s ≠ [] := by
  cases s with
  | nil => simp [splitOnChar]
  | cons c cs =>
    rw [splitOnChar]
    split
    · simp
    · split <;> simp

theorem splitOnChar_cons_self (sep : Char) (ys : Str) :
    splitOnChar sep (sep :: ys) = [] :: splitOnChar sep ys := by
  rw [splitOnChar, if_pos rfl]

theorem splitOnChar_single_of (sep : Char) (l : Str)
    (h : ∀ x ∈ l, ¬ x = sep) : splitOnChar sep l = [l] := by
  induction l with
  | nil => rfl
  | cons c cs ih =>
    rw [splitOnChar, if_neg (h c (by simp)),
      ih (fun x hx => h x (by simp [hx]))]

theorem splitOnChar_append_of (sep : Char) (xs ys : Str)
    (h : ∀ x ∈ xs, ¬ x = sep) :
    ∃ g gs, splitOnChar sep ys = g :: gs ∧
      splitOnChar sep (xs ++ ys) = (xs ++ g) :: gs := by
  induction xs with
  | nil =>
    obtain ⟨g, gs, hg⟩ : ∃ g gs, splitOnChar sep ys = g :: gs := by
      match hsp : splitOnChar sep ys with
      | [] => exact absurd hsp (splitOnChar_ne_nil sep ys)
      | g :: gs => exact ⟨g, gs, rfl⟩
    exact ⟨g, gs, hg, by simpa using hg⟩
  | cons c cs ih =>
    obtain ⟨g, gs, hg1, hg2⟩ := ih (fun x hx => h x (by simp [hx]))
    refine ⟨g, gs, hg1, ?_⟩
    rw [List.cons_append, splitOnChar, if_neg (h c (by simp)), hg2]
    rfl

theorem mem_splitOnChar (sep : Char) (s : Str) (x : Char) (hx : x ∈ s) :
    x = sep ∨ ∃ g ∈ splitOnChar sep s, x ∈ g := by
  induction s with
  | nil => cases hx
  | cons c cs ih =>
    by_cases hcsep : c = sep
    · subst hcsep
      rw [splitOnChar_cons_self]
      rcases List.mem_cons.mp hx with rfl | hx2
      · exact Or.inl rfl
      · rcases ih hx2 with h | ⟨g, hg, hxg⟩
        · exact Or.inl h
        · exact Or.inr ⟨g, by simp [hg], hxg⟩
    · obtain ⟨g, gs, hg1, hg2⟩ :=
        splitOnChar_append_of sep [c] cs (by simpa using hcsep)
      rw [show c :: cs = [c] ++ cs from rfl, hg2]
      rcases List.mem_cons.mp hx with rfl | hx2
      · exact Or.inr ⟨[x] ++ g, by simp, by simp⟩
      · rcases ih hx2 with h | ⟨g2, hg3, hxg⟩
        · exact Or.inl h
        · rw [hg1] at hg3
          rcases List.mem_cons.mp hg3 with rfl | hg4
          · exact Or.inr ⟨[c] ++ g2, by simp, by simp [hxg]⟩
          · exact Or.inr ⟨g2, by simp [hg4], hxg⟩

theorem isIPv4_split (q : Str) (h : isIPv4 q = true) :
    ∃ a b c d, splitOnChar '.' q = [a, b, c, d] ∧
      isV4Octet a = true ∧ isV4Octet b = true ∧ isV4Octet c = true ∧
      isV4Octet d = true := by
  rw [isIPv4] at h
  split at h
  next a b c d heq =>
    rw [Bool.and_eq_true, Bool.and_eq_true, Bool.and_eq_true] at h
    exact ⟨a, b, c, d, heq, h.1.1.1, h.1.1.2, h.1.2, h.2⟩
  next => cases h

theorem isV4Octet_digits (g : Str) (h : isV4Octet g = true) :
    ∀ x ∈ g, x.isDigit = true := by
  rw [isV4Octet, Bool.and_eq_true, Bool.and_eq_true, Bool.and_eq_true,
    Bool.and_eq_true] at h
  intro x hx
  exact List.all_eq_true.mp h.1.1.2 x hx

theorem isIPv4_chars (q : Str) (h : isIPv4 q = true) :
    ∀ x ∈ q, x.isDigit = true ∨ x = '.' := by
  obtain ⟨a, b, c, d, heq, ha, hb, hc, hd⟩ := isIPv4_split q h
  intro x hx
  rcases mem_splitOnChar '.' q x hx with h2 | ⟨g, hg, hxg⟩
  · exact Or.inr h2
  · rw [heq] at hg
    left
    simp only [List.mem_cons, List.not_mem_nil, or_false] at hg
    rcases hg with rfl | rfl | rfl | rfl
    · exact isV4Octet_digits g ha x hxg
    · exact isV4Octet_digits g hb x hxg
    · exact isV4Octet_digits g hc x hxg
    · exact isV4Octet_digits g hd x hxg

theorem dot_mem_of_isIPv4 (q : Str) (h : isIPv4 q = true) : '.' ∈ q := by
  by_contra hd
  obtain ⟨a, b, c, d, heq, _⟩ := isIPv4_split q h
  rw [splitOnChar_single_of '.' q (fun x hx hxe => hd (hxe ▸ hx))] at heq
  simp at heq

theorem isV4Octet_false_of (g : Str) (x : Char) (hx : x ∈ g)
    (hd : x.isDigit = false) : isV4Octet g = false := by
  cases hall : g.all Char.isDigit with
  | false => simp [isV4Octet, hall]
  | true =>
    rw [List.all_eq_true] at hall
    rw [hall x hx] at hd
    cases hd

theorem isHexGrp_false_of (g : Str) (x : Char) (hx : x ∈ g)
    (hd : isHexChar x = false) : isHexGrp g = false := by
  cases hall : g.all isHexChar with
  | false => simp [isHexGrp, hall]
  | true =>
    rw [List.all_eq_true] at hall
    rw [hall x hx] at hd
    cases hd

theorem chain'_of_no_colon (l : Str) (h : ∀ x ∈ l, ¬ x = ':') :
    l.Chain' (fun a b => ¬(a = ':' ∧ b = ':')) := by
  induction l with
  | nil => simp
  | cons c cs ih =>
    cases cs with
    | nil => simp
    | cons d ds =>
      rw [List.chain'_cons]
      refine ⟨fun hc => h d (by simp) hc.2, ?_⟩
      exact ih (fun x hx => h x (by simp [hx]))

theorem splitCC_single (l : Str)
    (h : l.Chain' (fun a b => ¬(a = ':' ∧ b = ':'))) :
    splitOnColonColon l = [l] := by
  match l with
  | [] => rfl
  | [c] => rfl
  | c :: d :: cs =>
    rw [splitOnColonColon, if_neg (List.chain'_cons.mp h).1,
      splitCC_single (d :: cs) (List.chain'_cons.mp h).2]
termination_by l.length

theorem replaceV4MappedOnce_affix (t : Str) :
    replaceV4MappedOnce (("::ffff:").data ++ t) = t := by
  have h1 : ("::ffff:").data ++ t =
      ':' :: (':' :: 'f' :: 'f' :: 'f' :: 'f' :: ':' :: t) := rfl
  rw [h1, replaceV4MappedOnce, if_pos]
  · rfl
  · exact (isPrefixOf_iff_exists _ _).mpr ⟨t, h1.symm⟩

/-- The code's special case really does classify the embedded IPv4
address — but only for the compressed lowercase spelling
`::ffff:a.b.c.d`. -/
theorem isPrivateIp_v4mapped (quad : Str) (hquad : isIPv4 quad = true) :
    isPrivateIp (("::ffff:").data ++ quad) = isPrivateIPv4 quad := by
  have hchars := isIPv4_chars quad hquad
  have hnc : ∀ x ∈ quad, ¬ x = ':' := by
    intro x hx he
    subst he
    rcases hchars _ hx with hd | hd
    · exact absurd hd (by decide)
    · exact absurd hd (by decide)
  have hnp : ∀ x ∈ quad, ¬ x = '%' := by
    intro x hx he
    subst he
    rcases hchars _ hx with hd | hd
    · exact absurd hd (by decide)
    · exact absurd hd (by decide)
  obtain ⟨a, b2, c2, d2, heq, ha, _, _, _⟩ := isIPv4_split quad hquad
  have hne4 : isIPv4 (("::ffff:").data ++ quad) = false := by
    obtain ⟨g, gs, hg1, hg2⟩ :=
      splitOnChar_append_of '.' (("::ffff:").data) quad (by decide)
    rw [heq] at hg1
    injection hg1 with e1 e2
    subst e1 e2
    rw [isIPv4, hg2]
    have hoct : isV4Octet (("::ffff:").data ++ a) = false :=
      isV4Octet_false_of _ ':' (List.mem_append_left _ (by decide)) (by decide)
    dsimp only
    rw [hoct]
    rfl
  have hm : replaceV4MappedOnce (("::ffff:").data ++ quad) = quad :=
    replaceV4MappedOnce_affix quad
  have hne6 : isIPv6 (("::ffff:").data ++ quad) = true := by
    rw [isIPv6, breakAtFirst_eq_none]
    · rw [isIPv6NoZone]
      have hsp : splitOnColonColon (("::ffff:").data ++ quad) =
          [[], ("ffff:").data ++ quad] := by
        have h2 : ("::ffff:").data ++ quad =
            ':' :: ':' :: (("ffff:").data ++ quad) := rfl
        rw [h2, splitOnColonColon, if_pos ⟨rfl, rfl⟩, splitCC_single]
        apply List.chain'_append.mpr
        refine ⟨?_, chain'_of_no_colon quad hnc, ?_⟩
        · rw [show ("ffff:").data = ['f', 'f', 'f', 'f', ':'] from rfl]
          refine List.chain'_cons.mpr ⟨by decide, ?_⟩
          refine List.chain'_cons.mpr ⟨by decide, ?_⟩
          refine List.chain'_cons.mpr ⟨by decide, ?_⟩
          refine List.chain'_cons.mpr ⟨by decide, ?_⟩
          simp
        intro x hx y hy
        exact fun hcc => hnc y (List.mem_of_mem_head? hy) hcc.2
      rw [hsp]
      have hside : sideCount (("ffff:").data ++ quad) true = some 3 := by
        rw [sideCount, if_neg (by simp)]
        have h3 : ("ffff:").data ++ quad = ("ffff").data ++ ':' :: quad := rfl
        obtain ⟨g, gs, hg1, hg2⟩ :=
          splitOnChar_append_of ':' (("ffff").data) (':' :: quad) (by decide)
        rw [splitOnChar_cons_self, splitOnChar_single_of ':' quad hnc] at hg1
        injection hg1 with e1 e2
        subst e1 e2
        rw [h3, hg2, List.append_nil]
        have hq : isHexGrp quad = false :=
          isHexGrp_false_of quad '.' (dot_mem_of_isIPv4 quad hquad) (by decide)
        simp [groupCount, hq, hquad, (by decide : isHexGrp (("ffff").data) = true)]
      dsimp only
      rw [hside]
      decide
    · intro c hc
      rcases List.mem_append.mp hc with hc | hc
      · exact (by decide : ∀ x ∈ ("::ffff:").data, decide (x = '%') = false) c hc
      · simp only [decide_eq_false_iff_not]
        exact hnp c hc
  have hip6 : isIP (("::ffff:").data ++ quad) = 6 := by
    rw [isIP, hne4, if_neg Bool.false_ne_true, if_pos hne6]
  rw [isPrivateIp, if_neg (by rw [hip6]; decide), if_pos hip6,
    if_pos ⟨(isPrefixOf_iff_exists _ _).mpr ⟨quad, rfl⟩,
      by rw [hm, isIP, if_pos hquad]⟩, hm]


/-! ### Bracketed IPv6 hostnames (the spelling `url.hostname` produces) -/

theorem mem_of_isSuffixOf (l s : Str) (h : l.isSuffixOf s = true) :
    ∀ x ∈ l, x ∈ s := by
  intro x hx
  rw [List.isSuffixOf] at h
  obtain ⟨t2, ht⟩ := (isPrefixOf_iff_exists _ _).mp h
  have hxr : x ∈ s.reverse := by
    rw [ht]
    exact List.mem_append_left _ (List.mem_reverse.mpr hx)
  exact List.mem_reverse.mp hxr

theorem splitCC_ne_nil (l : Str) : splitOnColonColon l ≠ [] := by
  match l with
  | [] => simp [splitOnColonColon]
  | [c] => simp [splitOnColonColon]
  | c :: d :: cs =>
    rw [splitOnColonColon]
    split
    · simp
    · split <;> simp

theorem splitCC_head_cons (c : Char) (rest : Str) (hc : ¬ c = ':') :
    ∃ g gs, splitOnColonColon (c :: rest) = (c :: g) :: gs := by
  match rest with
  | [] => exact ⟨[], [], rfl⟩
  | d :: cs =>
    rw [splitOnColonColon, if_neg (fun h => hc h.1)]
    match hs : splitOnColonColon (d :: cs) with
    | [] => exact absurd hs (splitCC_ne_nil _)
    | g :: gs => exact ⟨g, gs, rfl⟩

theorem isIPv4_bracket (rest : Str) : isIPv4 ('[' :: rest) = false := by
  cases h : isIPv4 ('[' :: rest) with
  | false => rfl
  | true =>
    exfalso
    rcases isIPv4_chars _ h '[' (by simp) with hd | hd
    · exact absurd hd (by decide)
    · exact absurd hd (by decide)

theorem groupCount_head_bad (g : Str) (gs : List Str) (av : Bool)
    (h1 : isHexGrp g = false) (h2 : isIPv4 g = false) :
    groupCount (g :: gs) av = none := by
  cases gs with
  | nil => rw [groupCount, if_neg (by simp [h1]), if_neg (by simp [h2])]
  | cons g2 gs2 =>
    rw [groupCount, if_neg (by simp [h1])]
    simp

theorem sideCount_bracket (t : Str) (av : Bool) :
    sideCount ('[' :: t) av = none := by
  rw [sideCount, if_neg (by simp)]
  obtain ⟨g, gs, hg1, hg2⟩ := splitOnChar_append_of ':' ['['] t (by decide)
  rw [show ('[' :: t) = ['['] ++ t from rfl, hg2]
  exact groupCount_head_bad _ _ av
    (isHexGrp_false_of _ '[' (by simp) (by decide))
    (isIPv4_bracket _)

theorem isIPv6NoZone_bracket (t : Str) : isIPv6NoZone ('[' :: t) = false := by
  obtain ⟨g, gs, hsp⟩ := splitCC_head_cons '[' t (by decide)
  rw [isIPv6NoZone, hsp]
  cases gs with
  | nil =>
    dsimp only
    rw [sideCount_bracket]
    rfl
  | cons r gs2 =>
    cases gs2 with
    | nil =>
      dsimp only
      rw [sideCount_bracket]
    | cons r2 gs3 => rfl

theorem isIPv6_bracket (t : Str) : isIPv6 ('[' :: t) = false := by
  rw [isIPv6, breakAtFirst, if_neg (by decide)]
  cases hbr : breakAtFirst (fun c => c = '%') t with
  | none => exact isIPv6NoZone_bracket t
  | some pr =>
    obtain ⟨pre, post⟩ := pr
    dsimp only [Option.map]
    rw [isIPv6NoZone_bracket]
    rfl

theorem isIP_bracket (t : Str) : isIP ('[' :: t) = 0 := by
  rw [isIP, isIPv4_bracket, if_neg Bool.false_ne_true, isIPv6_bracket,
    if_neg Bool.false_ne_true]

theorem lowerStr_bracket (rest : Str) :
    lowerStr ('[' :: rest) = '[' :: lowerStr rest := by
  rw [lowerStr, List.map_cons]
  rfl

/-- C2 as amended: a hostname that is an IPv4 literal is classified
directly — the outcome does not depend on the resolver's answer — and
is rejected with the private-IP error exactly when `isPrivateIp`
classifies it private, accepted exactly otherwise (the localhost/`.local`
guard never fires on an IPv4 literal, which consists of digits and
dots).  IPv6 literals never reach direct classification: the URL parser
serializes them bracketed, `net.isIP` does not recognise the bracketed
form, so they fall into the DNS-resolution branch — the private-IP
literal rejection is unreachable for them — and with an empty
resolution they fail with the resolution-failure error (see the
counterexample). -/
theorem ip_literal_classification (hostname : Str)
    (records records2 recs3 : List Str) (rest : Str)
    (hv4 : isIPv4 (lowerStr hostname) = true)
    (hsufB : (".local").data.isSuffixOf (lowerStr ('[' :: rest)) = false) :
    (assertSafeTarget hostname records = assertSafeTarget hostname records2) ∧
    (assertSafeTarget hostname records = .error .privateIpBlocked ↔
      isPrivateIp (lowerStr hostname) = true) ∧
    (assertSafeTarget hostname records = .ok () ↔
      isPrivateIp (lowerStr hostname) = false) ∧
    isIP (lowerStr ('[' :: rest)) = 0 ∧
    assertSafeTarget ('[' :: rest) recs3 ≠ .error .privateIpBlocked ∧
    assertSafeTarget ('[' :: rest) [] = .error .dnsResolutionFailed := by
  have hchars := isIPv4_chars (lowerStr hostname) hv4
  have hname : lowerStr hostname ≠ ("localhost").data := by
    intro h
    have ho : 'o' ∈ lowerStr hostname := by
      rw [h]
      decide
    rcases hchars 'o' ho with hd | hd
    · exact absurd hd (by decide)
    · exact absurd hd (by decide)
  have hsuf : (".local").data.isSuffixOf (lowerStr hostname) = false := by
    cases hcase : (".local").data.isSuffixOf (lowerStr hostname) with
    | false => rfl
    | true =>
      exfalso
      have ho : 'l' ∈ lowerStr hostname :=
        mem_of_isSuffixOf _ _ hcase 'l' (by decide)
      rcases hchars 'l' ho with hd | hd
      · exact absurd hd (by decide)
      · exact absurd hd (by decide)
  have hip : isIP (lowerStr hostname) ≠ 0 := by
    rw [isIP, if_pos hv4]
    decide
  have hred : ∀ rs : List Str, assertSafeTarget hostname rs =
      (if isPrivateIp (lowerStr hostname) = true then
        .error .privateIpBlocked else .ok ()) := by
    intro rs
    rw [assertSafeTarget]
    rw [if_neg (by rw [hsuf]; simpa using hname), if_pos hip]
  have hipB : isIP (lowerStr ('[' :: rest)) = 0 := by
    rw [lowerStr_bracket]
    exact isIP_bracket _
  have hnameB : ¬ (lowerStr ('[' :: rest) = ("localhost").data ∨
      (".local").data.isSuffixOf (lowerStr ('[' :: rest)) = true) := by
    rw [hsufB]
    rintro (h | h)
    · rw [lowerStr_bracket] at h
      injection h with h1 _
      exact absurd h1 (by decide)
    · cases h
  rw [hred records, hred records2]
  refine ⟨rfl, ?_, ?_, hipB, ?_, ?_⟩
  · by_cases hp : isPrivateIp (lowerStr hostname) = true
    · simp [hp]
    · simp only [Bool.not_eq_true] at hp
      simp [hp]
  · by_cases hp : isPrivateIp (lowerStr hostname) = true
    · simp [hp]
    · simp only [Bool.not_eq_true] at hp
      simp [hp]
  · rw [assertSafeTarget, if_neg hnameB, if_neg (by rw [hipB]; simp)]
    split
    · simp
    · split <;> simp
  · rw [assertSafeTarget, if_neg hnameB, if_neg (by rw [hipB]; simp)]
    simp

/-- Witness for `ip_literal_classification`: the private literal
`10.0.0.8` is rejected by direct classification, independently of the
resolver; the bracketed loopback literal `[::1]` is the shape used in
the DNS-branch conjuncts. -/
theorem ip_literal_classification_witness :
    assertSafeTarget (("10.0.0.8").data) [] = .error .privateIpBlocked :=
  (ip_literal_classification (("10.0.0.8").data) [] [("1.2.3.4").data] []
    (("::1]").data) (by decide) (by decide)).2.1.mpr (by decide)

/-! ### Limited body reader (`readTextLimited` in the route handler)

The response body is the list of byte chunks handed out by
`reader.read()`; the chunks partition the UTF-8 encoding of the body
text.  `TextDecoder` in streaming mode is modelled by an incremental
decoder whose state is the buffered incomplete trailing sequence;
`decoder.decode()` at end of read flushes a buffered incomplete
sequence as one replacement character, per the WHATWG encoding
standard (the model agrees with it on the well-formed inputs the
theorems quantify over).  Decoded text is measured in UTF-16 code
units — the unit of JavaScript's `text.length` and `text.slice` — so
the decoder emits each decoded scalar value as its one or two code
units, and supplementary-plane characters count twice, exactly as in
the source. -/

def MAX_MARKDOWN_CHARS : Nat := 50000

def REPLACEMENT_CHAR : Nat := 0xFFFD

/-- Unicode scalar values: what a well-formed body consists of. -/
def ValidCp (c : Nat) : Prop := c < 0xD800 ∨ (0xE000 ≤ c ∧ c < 0x110000)

/-- The UTF-16 code units of a scalar value: itself for the BMP, a
surrogate pair for the supplementary planes. -/
def utf16Units (c : Nat) : List Nat :=
  if c < 0x10000 then [c]
  else [0xD800 + (c - 0x10000) / 1024, 0xDC00 + (c - 0x10000) % 1024]

/-- The UTF-16 code-unit sequence of a list of scalar values: how
JavaScript stores the decoded text. -/
def utf16Of : List Nat → List Nat
  | [] => []
  | c :: cs => utf16Units c ++ utf16Of cs

/-- Sequence length promised by a UTF-8 leading byte (0 = invalid). -/
def utf8Len (b : Nat) : Nat :=
  if b < 0x80 then 1
  else if b < 0xC0 then 0
  else if b < 0xE0 then 2
  else if b < 0xF0 then 3
  else if b < 0xF8 then 4
  else 0

def utf8EncodeChar (c : Nat) : List Nat :=
  if c < 0x80 then [c]
  else if c < 0x800 then [0xC0 + c / 64, 0x80 + c % 64]
  else if c < 0x10000 then
    [0xE0 + c / 4096, 0x80 + c / 64 % 64, 0x80 + c % 64]
  else
    [0xF0 + c / 262144, 0x80 + c / 4096 % 64, 0x80 + c / 64 % 64,
     0x80 + c % 64]

def utf8EncodeList : List Nat → List Nat
  | [] => []
  | c :: cs => utf8EncodeChar c ++ utf8EncodeList cs

def decodeChar : List Nat → Nat
  | [b0] => b0
  | [b0, b1] => (b0 - 0xC0) * 64 + (b1 - 0x80)
  | [b0, b1, b2] => (b0 - 0xE0) * 4096 + (b1 - 0x80) * 64 + (b2 - 0x80)
  | [b0, b1, b2, b3] =>
    (b0 - 0xF0) * 262144 + (b1 - 0x80) * 4096 + (b2 - 0x80) * 64 +
      (b3 - 0x80)
  | _ => REPLACEMENT_CHAR

/-- One `decoder.decode(value, { stream: true })` step on the buffered
bytes followed by the chunk: decode every complete sequence into its
code units, buffer an incomplete trailing sequence. -/
def decodeLoop (bs : List Nat) : List Nat × List Nat :=
  match bs with
  | [] => ([], [])
  | b :: rest =>
    if _h0 : utf8Len b = 0 then
      (REPLACEMENT_CHAR :: (decodeLoop rest).1, (decodeLoop rest).2)
    else if _h1 : rest.length + 1 < utf8Len b then ([], b :: rest)
    else
      (utf16Units (decodeChar ((b :: rest).take (utf8Len b))) ++
        (decodeLoop ((b :: rest).drop (utf8Len b))).1,
       (decodeLoop ((b :: rest).drop (utf8Len b))).2)
termination_by bs.length
decreasing_by
  all_goals simp only [List.length_drop, List.length_cons]
  all_goals omega

/-- The final `decoder.decode()` flush. -/
def flushPending (pending : List Nat) : List Nat :=
  if pending.isEmpty then [] else [REPLACEMENT_CHAR]

/-- The `while (true)` read loop of `readTextLimited`, with the decoder
state made explicit.  `text` is the accumulated code-unit sequence, so
`List.length` and `take limit` are `text.length` and
`text.slice(0, limit)`.  On exceeding the ceiling the text is cut to
`limit`, the reader cancelled, and the loop left; either exit path then
appends the flush. -/
def readTextAux (limit : Nat) :
    List (List Nat) → List Nat → List Nat → List Nat × Bool
  | [], text, pending => (text ++ flushPending pending, false)
  | chunk :: rest, text, pending =>
    if limit < (text ++ (decodeLoop (pending ++ chunk)).1).length then
      ((text ++ (decodeLoop (pending ++ chunk)).1).take limit ++
        flushPending (decodeLoop (pending ++ chunk)).2, true)
    else
      readTextAux limit rest (text ++ (decodeLoop (pending ++ chunk)).1)
        (decodeLoop (pending ++ chunk)).2

/-- Model of `readTextLimited`, returning `{ text, truncated }`.
`response.body?.getReader()` either yields a chunk stream
(`some chunks`) or is absent (`none`); in the latter case the source
falls back to `await response.text()` — the fully decoded body, passed
here as the code-unit sequence `fallback` — and returns its
`slice(0, limitChars)` with `truncated = fallback.length > limitChars`. -/
def readTextLimited (reader : Option (List (List Nat)))
    (fallback : List Nat) (limit : Nat) : List Nat × Bool :=
  match reader with
  | none => (fallback.take limit, limit < fallback.length)
  | some chunks => readTextAux limit chunks [] []

def concatAll : List (List Nat) → List Nat
  | [] => []
  | c :: cs => c ++ concatAll cs

theorem decodeLoop_nil : decodeLoop [] = ([], []) := by
  rw [decodeLoop.eq_def]

theorem decodeLoop_short (b : Nat) (rest : List Nat)
    (h0 : utf8Len b ≠ 0) (h1 : rest.length + 1 < utf8Len b) :
    decodeLoop (b :: rest) = ([], b :: rest) := by
  rw [decodeLoop.eq_def]
  dsimp only
  rw [dif_neg h0, dif_pos h1]

theorem decodeLoop_step (b : Nat) (rest : List Nat)
    (h0 : utf8Len b ≠ 0) (h1 : ¬ rest.length + 1 < utf8Len b) :
    decodeLoop (b :: rest) =
      (utf16Units (decodeChar ((b :: rest).take (utf8Len b))) ++
        (decodeLoop ((b :: rest).drop (utf8Len b))).1,
       (decodeLoop ((b :: rest).drop (utf8Len b))).2) := by
  rw [decodeLoop.eq_def]
  dsimp only
  rw [dif_neg h0, dif_neg h1]

theorem utf8EncodeChar_len_pos (c : Nat) :
    1 ≤ (utf8EncodeChar c).length := by
  rw [utf8EncodeChar]
  split
  · simp
  · split
    · simp
    · split <;> simp

theorem utf8EncodeChar_ne_nil (c : Nat) : utf8EncodeChar c ≠ [] := by
  have := utf8EncodeChar_len_pos c
  intro h
  rw [h] at this
  simp at this

theorem utf16Units_len_pos (c : Nat) : 1 ≤ (utf16Units c).length := by
  rw [utf16Units]
  split <;> simp

theorem utf16Of_append (xs ys : List Nat) :
    utf16Of (xs ++ ys) = utf16Of xs ++ utf16Of ys := by
  induction xs with
  | nil => rfl
  | cons c cs ih =>
    rw [List.cons_append, utf16Of, utf16Of, ih, List.append_assoc]

theorem utf16Of_eq_nil (l : List Nat) (h : utf16Of l = []) : l = [] := by
  cases l with
  | nil => rfl
  | cons c cs =>
    exfalso
    rw [utf16Of] at h
    have h2 := (List.append_eq_nil.mp h).1
    have := utf16Units_len_pos c
    rw [h2] at this
    simp at this

theorem utf8Len_encodeChar (c : Nat) (hc : c < 0x110000) :
    utf8Len ((utf8EncodeChar c).headD 0) = (utf8EncodeChar c).length := by
  rw [utf8EncodeChar]
  split
  next h1 =>
    rw [List.headD_cons, List.length_singleton, utf8Len, if_pos h1]
  next h1 =>
    split
    next h2 =>
      rw [List.headD_cons, utf8Len,
        if_neg (by omega), if_neg (by omega), if_pos (by omega)]
      rfl
    next h2 =>
      split
      next h3 =>
        rw [List.headD_cons, utf8Len,
          if_neg (by omega), if_neg (by omega), if_neg (by omega),
          if_pos (by omega)]
        rfl
      next h3 =>
        rw [List.headD_cons, utf8Len,
          if_neg (by omega), if_neg (by omega), if_neg (by omega),
          if_neg (by omega), if_pos (by omega)]
        rfl

theorem decodeChar_encodeChar (c : Nat) (hc : c < 0x110000) :
    decodeChar (utf8EncodeChar c) = c := by
  rw [utf8EncodeChar]
  split
  next h1 =>
    rw [decodeChar]
  next h1 =>
    split
    next h2 =>
      rw [decodeChar]
      omega
    next h2 =>
      split
      next h3 =>
        rw [decodeChar]
        omega
      next h3 =>
        rw [decodeChar]
        omega

theorem utf8EncodeList_append (xs ys : List Nat) :
    utf8EncodeList (xs ++ ys) = utf8EncodeList xs ++ utf8EncodeList ys := by
  induction xs with
  | nil => rfl
  | cons c cs ih =>
    rw [List.cons_append, utf8EncodeList, utf8EncodeList, ih,
      List.append_assoc]

/-- Streaming decode of a prefix of a valid encoding: the decoder emits
exactly the code units of the maximal complete character prefix and
buffers the strict remainder of the next character's encoding. -/
theorem decodeLoop_prefix (cps : List Nat) :
    ∀ (bs rest : List Nat), (∀ c ∈ cps, c < 0x110000) →
    bs ++ rest = utf8EncodeList cps →
    ∃ j p, j ≤ cps.length ∧ bs = utf8EncodeList (cps.take j) ++ p ∧
      decodeLoop bs = (utf16Of (cps.take j), p) ∧
      (∀ c cs2, cps.drop j = c :: cs2 →
        p.length < (utf8EncodeChar c).length) := by
  induction cps with
  | nil =>
    intro bs rest hv he
    rw [utf8EncodeList] at he
    obtain ⟨h1, h2⟩ := List.append_eq_nil.mp he
    subst h1
    exact ⟨0, [], by simp, by simp [utf8EncodeList], decodeLoop_nil,
      by intro c cs2 h; cases h⟩
  | cons c cs ih =>
    intro bs rest hv he
    have hc : c < 0x110000 := hv c (by simp)
    rw [utf8EncodeList] at he
    by_cases hshort : bs.length < (utf8EncodeChar c).length
    · refine ⟨0, bs, by simp, by simp [utf8EncodeList], ?_, ?_⟩
      · rw [List.take_zero]
        show decodeLoop bs = ([], bs)
        cases hbs : bs with
        | nil => exact decodeLoop_nil
        | cons b bs2 =>
          obtain ⟨e0, etl, hE⟩ : ∃ e0 etl, utf8EncodeChar c = e0 :: etl := by
            match hE : utf8EncodeChar c with
            | [] => exact absurd hE (utf8EncodeChar_ne_nil c)
            | e0 :: etl => exact ⟨e0, etl, rfl⟩
          have hbpre : bs = (utf8EncodeChar c ++ utf8EncodeList cs).take
              bs.length := by
            rw [← he, List.take_left]
          have hble : bs.length ≤ (utf8EncodeChar c).length := le_of_lt hshort
          rw [List.take_append_of_le_length hble] at hbpre
          have hb0 : b = e0 := by
            rw [hbs, hE] at hbpre
            cases hbs2 : bs2 with
            | nil =>
              rw [hbs2] at hbpre
              simp [List.take] at hbpre
              exact hbpre
            | cons x xs =>
              rw [hbs2] at hbpre
              simp only [List.length_cons, List.take_succ_cons,
                List.cons.injEq] at hbpre
              exact hbpre.1
          have hlenB : utf8Len b = (utf8EncodeChar c).length := by
            rw [hb0, ← utf8Len_encodeChar c hc, hE]
            rfl
          apply decodeLoop_short
          · rw [hlenB]
            have := utf8EncodeChar_len_pos c
            omega
          · rw [hlenB]
            rw [hbs] at hshort
            simpa using hshort
      · intro c2 cs2 hdrop
        rw [List.drop_zero] at hdrop
        injection hdrop with e1 _
        subst e1
        exact hshort
    · push_neg at hshort
      have hbseq : bs.take (utf8EncodeChar c).length = utf8EncodeChar c := by
        have h1 : (bs ++ rest).take (utf8EncodeChar c).length =
            utf8EncodeChar c := by
          rw [he, List.take_left]
        rw [List.take_append_of_le_length hshort] at h1
        exact h1
      have hbs2 : bs =
          utf8EncodeChar c ++ bs.drop (utf8EncodeChar c).length := by
        conv_lhs => rw [← List.take_append_drop (utf8EncodeChar c).length bs]
        rw [hbseq]
      have hrest : bs.drop (utf8EncodeChar c).length ++ rest =
          utf8EncodeList cs := by
        have h2 : utf8EncodeChar c ++ (bs.drop (utf8EncodeChar c).length ++
            rest) = utf8EncodeChar c ++ utf8EncodeList cs := by
          rw [← List.append_assoc, ← hbs2, he]
        exact List.append_cancel_left h2
      obtain ⟨j, p, hj, hpeq, hdec, hpart⟩ :=
        ih (bs.drop (utf8EncodeChar c).length) rest
          (fun x hx => hv x (by simp [hx])) hrest
      obtain ⟨e0, etl, hE⟩ : ∃ e0 etl, utf8EncodeChar c = e0 :: etl := by
        match hE : utf8EncodeChar c with
        | [] => exact absurd hE (utf8EncodeChar_ne_nil c)
        | e0 :: etl => exact ⟨e0, etl, rfl⟩
      obtain ⟨b, bs3, hbs3⟩ : ∃ b bs3, bs = b :: bs3 := by
        match hbq : bs with
        | [] =>
          exfalso
          have := utf8EncodeChar_len_pos c
          rw [List.length_nil] at hshort
          omega
        | b :: bs3 => exact ⟨b, bs3, rfl⟩
      have hb0 : b = e0 := by
        have := hbs2
        rw [hbs3, hE] at this
        injection this with e1 _
      have hlenB : utf8Len b = (utf8EncodeChar c).length := by
        rw [hb0, ← utf8Len_encodeChar c hc, hE]
        rfl
      have hstep := decodeLoop_step b bs3
        (by rw [hlenB]; have := utf8EncodeChar_len_pos c; omega)
        (by
          rw [hlenB]
          have : bs.length = bs3.length + 1 := by rw [hbs3]; rfl
          omega)
      refine ⟨j + 1, p, by simp only [List.length_cons]; omega, ?_, ?_, ?_⟩
      · rw [List.take_succ_cons, utf8EncodeList, List.append_assoc, ← hpeq,
          ← hbs2]
      · rw [hbs3]
        rw [hstep]
        have htake : (b :: bs3).take (utf8Len b) = utf8EncodeChar c := by
          rw [hlenB, ← hbs3, hbseq]
        have hdrop : (b :: bs3).drop (utf8Len b) =
            bs.drop (utf8EncodeChar c).length := by
          rw [hlenB, ← hbs3]
        rw [htake, hdrop, hdec, decodeChar_encodeChar c hc,
          List.take_succ_cons, utf16Of]
      · intro c2 cs2 hdrop
        rw [List.drop_succ_cons] at hdrop
        exact hpart c2 cs2 hdrop

/-- The read loop with remaining body `cps`: when the ceiling is not
hit, everything decodes and `truncated` is `false`. -/
theorem readTextAux_complete (chunks : List (List Nat)) :
    ∀ (cps text pending : List Nat) (limit : Nat),
    (∀ c ∈ cps, c < 0x110000) →
    pending ++ concatAll chunks = utf8EncodeList cps →
    (∀ c cs2, cps = c :: cs2 → pending.length < (utf8EncodeChar c).length) →
    text.length + (utf16Of cps).length ≤ limit →
    readTextAux limit chunks text pending = (text ++ utf16Of cps, false) := by
  induction chunks with
  | nil =>
    intro cps text pending limit hv hinv hpart hlen
    rw [concatAll, List.append_nil] at hinv
    cases cps with
    | nil =>
      rw [utf8EncodeList] at hinv
      subst hinv
      rw [readTextAux]
      rfl
    | cons c cs2 =>
      exfalso
      have h1 := hpart c cs2 rfl
      have h2 : pending.length = (utf8EncodeList (c :: cs2)).length := by
        rw [hinv]
      rw [utf8EncodeList, List.length_append] at h2
      omega
  | cons chunk rest ih =>
    intro cps text pending limit hv hinv hpart hlen
    rw [concatAll] at hinv
    obtain ⟨j, p, hj, hbs, hdec, hpart2⟩ := decodeLoop_prefix cps
      (pending ++ chunk) (concatAll rest) hv
      (by rw [List.append_assoc]; exact hinv)
    rw [readTextAux, hdec]
    dsimp only
    have h16 : utf16Of (cps.take j) ++ utf16Of (cps.drop j) =
        utf16Of cps := by
      rw [← utf16Of_append, List.take_append_drop]
    have hlen16 : (utf16Of (cps.take j)).length +
        (utf16Of (cps.drop j)).length = (utf16Of cps).length := by
      rw [← List.length_append, h16]
    have hno : ¬ limit < (text ++ utf16Of (cps.take j)).length := by
      rw [List.length_append]
      omega
    rw [if_neg hno]
    have hinv2 : p ++ concatAll rest = utf8EncodeList (cps.drop j) := by
      have h3 : utf8EncodeList (cps.take j) ++ (p ++ concatAll rest) =
          utf8EncodeList (cps.take j) ++ utf8EncodeList (cps.drop j) := by
        rw [← List.append_assoc, ← hbs, List.append_assoc, hinv,
          ← utf8EncodeList_append, List.take_append_drop]
      exact List.append_cancel_left h3
    rw [ih (cps.drop j) (text ++ utf16Of (cps.take j)) p limit
      (fun x hx => hv x (List.drop_subset j cps hx)) hinv2 hpart2
      (by rw [List.length_append]; omega)]
    rw [List.append_assoc, h16]

/-- The read loop with a remaining body exceeding the ceiling by exactly
one code unit: truncation fires with the text cut to `limit` and an
empty flush. -/
theorem readTextAux_truncOne (chunks : List (List Nat)) :
    ∀ (cps text pending : List Nat) (limit : Nat),
    (∀ c ∈ cps, c < 0x110000) →
    pending ++ concatAll chunks = utf8EncodeList cps →
    (∀ c cs2, cps = c :: cs2 → pending.length < (utf8EncodeChar c).length) →
    text.length + (utf16Of cps).length = limit + 1 →
    text.length ≤ limit →
    readTextAux limit chunks text pending =
      ((text ++ utf16Of cps).take limit, true) := by
  induction chunks with
  | nil =>
    intro cps text pending limit hv hinv hpart htot hle
    exfalso
    rw [concatAll, List.append_nil] at hinv
    cases cps with
    | nil =>
      rw [utf16Of, List.length_nil] at htot
      omega
    | cons c cs2 =>
      have h1 := hpart c cs2 rfl
      have h2 : pending.length = (utf8EncodeList (c :: cs2)).length := by
        rw [hinv]
      rw [utf8EncodeList, List.length_append] at h2
      omega
  | cons chunk rest ih =>
    intro cps text pending limit hv hinv hpart htot hle
    rw [concatAll] at hinv
    obtain ⟨j, p, hj, hbs, hdec, hpart2⟩ := decodeLoop_prefix cps
      (pending ++ chunk) (concatAll rest) hv
      (by rw [List.append_assoc]; exact hinv)
    have hinv2 : p ++ concatAll rest = utf8EncodeList (cps.drop j) := by
      have h3 : utf8EncodeList (cps.take j) ++ (p ++ concatAll rest) =
          utf8EncodeList (cps.take j) ++ utf8EncodeList (cps.drop j) := by
        rw [← List.append_assoc, ← hbs, List.append_assoc, hinv,
          ← utf8EncodeList_append, List.take_append_drop]
      exact List.append_cancel_left h3
    have h16 : utf16Of (cps.take j) ++ utf16Of (cps.drop j) =
        utf16Of cps := by
      rw [← utf16Of_append, List.take_append_drop]
    have hlen16 : (utf16Of (cps.take j)).length +
        (utf16Of (cps.drop j)).length = (utf16Of cps).length := by
      rw [← List.length_append, h16]
    rw [readTextAux, hdec]
    dsimp only
    by_cases htr : limit < (text ++ utf16Of (cps.take j)).length
    · rw [if_pos htr]
      rw [List.length_append] at htr
      have hdropnil : cps.drop j = [] := by
        apply utf16Of_eq_nil
        have h0 : (utf16Of (cps.drop j)).length = 0 := by omega
        exact List.length_eq_zero.mp h0
      have htk : cps.take j = cps := by
        have h4 := List.take_append_drop j cps
        rw [hdropnil, List.append_nil] at h4
        exact h4
      have hpnil : p = [] := by
        rw [hdropnil] at hinv2
        rw [utf8EncodeList] at hinv2
        exact (List.append_eq_nil.mp hinv2).1
      rw [htk, hpnil, flushPending]
      simp
    · rw [if_neg htr]
      rw [ih (cps.drop j) (text ++ utf16Of (cps.take j)) p limit
        (fun x hx => hv x (List.drop_subset j cps hx)) hinv2 hpart2
        (by rw [List.length_append]; omega)
        (by omega)]
      rw [List.append_assoc, h16]

/-- C5: with the ceiling `MAX_MARKDOWN_CHARS`, for every well-formed
body — measured, like the source's `text.length`, in UTF-16 code
units — and for both reader shapes (a stream chunking the body's UTF-8
encoding arbitrarily, or the absent-reader `response.text()` fallback):
a body of `MAX_MARKDOWN_CHARS + 1` units is returned with
`truncated = true` and exactly the first `MAX_MARKDOWN_CHARS` units —
reading stopped once the ceiling was exceeded, the already-read prefix
kept, and the end-of-read flush of partially-decoded trailing bytes
empty on this boundary; a body of exactly `MAX_MARKDOWN_CHARS` units is
returned whole with `truncated = false`. -/
theorem read_text_limited_boundary (body : List Nat)
    (reader : Option (List (List Nat)))
    (hv : ∀ c ∈ body, ValidCp c)
    (hp : ∀ chunks, reader = some chunks →
      concatAll chunks = utf8EncodeList body) :
    ((utf16Of body).length = MAX_MARKDOWN_CHARS + 1 →
      readTextLimited reader (utf16Of body) MAX_MARKDOWN_CHARS =
        ((utf16Of body).take MAX_MARKDOWN_CHARS, true)) ∧
    ((utf16Of body).length = MAX_MARKDOWN_CHARS →
      readTextLimited reader (utf16Of body) MAX_MARKDOWN_CHARS =
        (utf16Of body, false)) := by
  have hv2 : ∀ c ∈ body, c < 0x110000 := by
    intro c hc
    rcases hv c hc with h | h
    · omega
    · omega
  have hpart0 : ∀ c cs2, body = c :: cs2 →
      ([] : List Nat).length < (utf8EncodeChar c).length := by
    intro c cs2 _
    have := utf8EncodeChar_len_pos c
    rw [List.length_nil]
    omega
  match reader with
  | none =>
    constructor
    · intro hlen
      rw [readTextLimited]
      simp [hlen]
    · intro hlen
      rw [readTextLimited]
      simp [hlen, List.take_of_length_le (le_of_eq hlen)]
  | some chunks =>
    have hpc := hp chunks rfl
    constructor
    · intro hlen
      rw [readTextLimited, readTextAux_truncOne chunks body [] []
        MAX_MARKDOWN_CHARS hv2 (by rw [List.nil_append, hpc]) hpart0
        (by rw [List.length_nil, hlen, Nat.zero_add])
        (by rw [List.length_nil]; omega)]
      rw [List.nil_append]
    · intro hlen
      rw [readTextLimited, readTextAux_complete chunks body [] []
        MAX_MARKDOWN_CHARS hv2 (by rw [List.nil_append, hpc]) hpart0
        (by rw [List.length_nil, hlen, Nat.zero_add])]
      rw [List.nil_append]

theorem utf16Of_replicate_ascii (n : Nat) :
    utf16Of (List.replicate n 97) = List.replicate n 97 := by
  induction n with
  | zero => rfl
  | succ n ih =>
    rw [List.replicate_succ, utf16Of, ih]
    rfl

/-- Witness for `read_text_limited_boundary`: a body of 50,001 ASCII
characters delivered through a reader as one chunk. -/
theorem read_text_limited_boundary_witness :
    readTextLimited
      (some [utf8EncodeList (List.replicate (MAX_MARKDOWN_CHARS + 1) 97)])
      (utf16Of (List.replicate (MAX_MARKDOWN_CHARS + 1) 97))
      MAX_MARKDOWN_CHARS =
      ((utf16Of (List.replicate (MAX_MARKDOWN_CHARS + 1) 97)).take
        MAX_MARKDOWN_CHARS, true) :=
  (read_text_limited_boundary (List.replicate (MAX_MARKDOWN_CHARS + 1) 97)
    (some [utf8EncodeList (List.replicate (MAX_MARKDOWN_CHARS + 1) 97)])
    (fun c hc => by
      rw [List.eq_of_mem_replicate hc]
      exact Or.inl (by omega))
    (fun chunks hch => by
      injection hch with hch
      rw [← hch, concatAll, concatAll, List.append_nil])).1
    (by rw [utf16Of_replicate_ascii, List.length_replicate])

end MdCheck
